import Mathlib

/-!
Verification of the spreadsheet engine (cell value model, dependency graph,
cached evaluator) of this repository.  The engine code is shallowly embedded:
`cell.cpp` and `formula.cpp` are translated function by function; components
of the repository that are not under `src/` (`sheet.cpp`, `common.h`, the
`FormulaAST` collaborator) are modelled from the specification and marked as
such in their doc comments.  C++ `unordered_set` members are modelled as
lists with insert-if-absent (a fixed iteration order refining the library's
unspecified one); machine doubles are modelled as rationals; fallible code
returns `Option`/`Except`, with `Option.none`/`SetOutcome.ub` marking runs
that dereference a null cell pointer or exhaust fuel.
-/

namespace Spreadsheet

/-- Modelled from the spec: `Position` (`common.h` is not under `src/`) — a
(row, column) pair with zero-based indexing. -/
structure Pos where
  row : Nat
  col : Nat
deriving DecidableEq, Repr

/-- Modelled from the spec: positions are totally ordered row-major. -/
def posLe (a b : Pos) : Bool :=
  a.row < b.row || (a.row == b.row && a.col ≤ b.col)

/-- Modelled from the spec: a position is valid iff both coordinates are
below the engine limits (16384×16384-class limits per the spec). -/
def posValid (p : Pos) : Bool :=
  p.row < 16384 && p.col < 16384

/-- `FormulaError::Category` (`common.h` is not under `src/`; the three
kinds `Ref`, `Value`, `Div0` are taken from the spec's error taxonomy). -/
inductive FECat where
  | Ref
  | Value
  | Div0
deriving DecidableEq, Repr

/-- Modelled from the spec: the external `FormulaAST` expression tree.  The
engine only needs literals, cell references and arithmetic: addition and
division suffice for every behaviour the claims mention. -/
inductive Expr where
  | num (q : ℚ)
  | cellRef (p : Pos)
  | add (a b : Expr)
  | div (a b : Expr)
deriving DecidableEq, Repr

/-- Modelled from the spec: `FormulaAST::GetCells` — the sequence of cell
positions occurring in the AST, in syntactic order, with no dedup or sort
(per the parser contract, sorting and deduplicating is the engine's job). -/
def cellsOf : Expr → List Pos
  | .num _ => []
  | .cellRef p => [p]
  | .add a b => cellsOf a ++ cellsOf b
  | .div a b => cellsOf a ++ cellsOf b

/-- Body of `uniqueAdj`: the element kept so far against the rest. -/
def uniqueAdjGo (a : Pos) : List Pos → List Pos
  | [] => [a]
  | b :: t => if a = b then uniqueAdjGo a t else a :: uniqueAdjGo b t

/-- `std::unique` on a list: drops the later of two equal adjacent elements
(only adjacent duplicates are removed). -/
def uniqueAdj : List Pos → List Pos
  | [] => []
  | a :: t => uniqueAdjGo a t

/-- Insertion step of the sort used to model `std::sort` over positions. -/
def insertSorted (x : Pos) : List Pos → List Pos
  | [] => [x]
  | y :: t => if posLe x y then x :: y :: t else y :: insertSorted x t

/-- `std::sort` with the row-major order, modelled as insertion sort. -/
def sortPos (l : List Pos) : List Pos := l.foldr insertSorted []

/-- `Formula::Formula` (formula.cpp): the constructor copies the AST's cell
sequence, then calls `std::unique`, erases the tail, then `std::sort` — in
that order, exactly as in the source. -/
def engineRefs (cells : List Pos) : List Pos := sortPos (uniqueAdj cells)

/-- `CellValueInterface` variants (cell.cpp): `EmptyCellValue`,
`TextCellValue`, `FormulaCellValue` with its `std::optional<double>` cache. -/
inductive CVal where
  | empty
  | text (t : String)
  | formula (ast : Expr) (cache : Option ℚ)
deriving DecidableEq, Repr

/-- A `Cell` (cell.cpp): the owned value plus the two edge sets
`descending_cells_` (out-edges) and `ascending_cells_` (in-edges), modelled
as position lists with set-insert discipline. -/
structure Cell where
  val : CVal
  outE : List Pos
  inE : List Pos
deriving DecidableEq, Repr

/-- The sheet storage: position-keyed cells.  The dense grid of `Sheet` is
modelled as the association list of its present slots. -/
abbrev Sheet := List (Pos × Cell)

/-- `Sheet::GetCell` / `Cell::GetCell` (lookup by position; no creation, per
the spec's `GetCell` contract — `sheet.cpp` is not under `src/`). -/
def lookupCell : Sheet → Pos → Option Cell
  | [], _ => none
  | (q, c) :: rest, p => if q = p then some c else lookupCell rest p

/-- Pointwise rewrite of every cell, keeping keys: the building block for
modelling in-place mutation through cell pointers. -/
def mapCells (s : Sheet) (g : Pos → Cell → Cell) : Sheet :=
  s.map (fun qc => (qc.1, g qc.1 qc.2))

/-- In-place mutation of the single cell at `p`. -/
def updateCell (s : Sheet) (p : Pos) (f : Cell → Cell) : Sheet :=
  mapCells s (fun q c => if q = p then f c else c)

/-- The two edge sets of the cell at `q` (the part of the state the edge
symmetry invariant talks about). -/
def edgesAt (s : Sheet) (q : Pos) : Option (List Pos × List Pos) :=
  (lookupCell s q).map fun c => (c.outE, c.inE)

/-- The incoming list of the cell at `p` (empty when absent) — what
`Cell::Set` and `Cell::Clear` pass to the invalidation walk. -/
def ascAt (s : Sheet) (p : Pos) : List Pos :=
  match lookupCell s p with
  | some c => c.inE
  | none => []

/-- `unordered_set::insert`: append if not already present. -/
def setInsert (l : List Pos) (x : Pos) : List Pos :=
  if x ∈ l then l else l ++ [x]

/-- `Cell::GetReferencedCells` of a cell VALUE as used internally by the
graph code: formula values expose the engine's processed reference list,
other values expose none (the DFS and the edge code query it only after a
`TryInterpretAsFormula` check). -/
def refsOfCVal : CVal → List Pos
  | .formula ast _ => engineRefs (cellsOf ast)
  | _ => []

/-- The cache-independent skeleton of a cell: its referenced positions and
its two edge sets.  Cache writes (fills and invalidations) are exactly the
mutations that preserve every cell's skeleton. -/
def cellSkel (c : Cell) : List Pos × List Pos × List Pos :=
  (refsOfCVal c.val, c.outE, c.inE)

/-- Two sheets with the same cells up to cache contents. -/
def SameSkel (s s2 : Sheet) : Prop :=
  ∀ q, (lookupCell s2 q).map cellSkel = (lookupCell s q).map cellSkel

/-- `Cell::TryInterpretAsFormula` (cell.cpp): the formula payload when the
value is a formula, `none` (a null pointer) otherwise. -/
def tryInterpretAsFormula : CVal → Option (Expr × Option ℚ)
  | .formula ast cache => some (ast, cache)
  | _ => none

/-- `Cell::GetReferencedCells` (cell.cpp): calls `GetReferencedCells`
through the raw result of `TryInterpretAsFormula` with no null check —
`none` models the null-pointer dereference on Empty/Text cells. -/
def cellGetReferencedCells (v : CVal) : Option (List Pos) :=
  (tryInterpretAsFormula v).map (fun f => engineRefs (cellsOf f.1))

/-- The escape character `ESCAPE_SIGN` (an apostrophe). -/
def escapeSign : Char := Char.ofNat 39

/-- `TextCellValue::GetValue` (cell.cpp): the stored text with one leading
escape character stripped when present. -/
def textDisplay (t : String) : String :=
  match t.data with
  | c :: rest => if c = escapeSign then String.mk rest else t
  | [] => t

/-- `operator<<(std::ostream&, FormulaError)` (formula.cpp): the rendered
token of a formula error.  The source prints a fixed token and ignores the
error's category. -/
def formulaErrorMsg (_e : FECat) : String := "#DIV/0!"

/-- The integer-part alternative `(0|([1-9][0-9]*))` of the regex in
`CellValueGetter` (formula.cpp). -/
def intPartOK (l : List Char) : Bool :=
  match l with
  | [] => false
  | c :: rest => if c = '0' then rest.isEmpty else c.isDigit && rest.all (·.isDigit)

/-- The fractional group `(.[0-9]+)?` as the source's regex actually reads:
the `.` is unescaped, so it matches ANY character, followed by digits. -/
def fracPartLax (l : List Char) : Bool :=
  match l with
  | [] => true
  | _ :: rest => !rest.isEmpty && rest.all (·.isDigit)

/-- The fractional group as the claim's strict grammar reads: a literal dot
followed by one or more digits.  This definition follows the spec's words
and exists to be compared with the source's `fracPartLax`. -/
def fracPartStrict (l : List Char) : Bool :=
  match l with
  | [] => true
  | c :: rest => c = '.' && !rest.isEmpty && rest.all (·.isDigit)

/-- `std::regex_match` against the source's pattern
`^(-?)(0|([1-9][0-9]*))(.[0-9]+)?$` (unescaped dot). -/
def laxDecimalMatch (t : String) : Bool :=
  let cs := t.data
  let body := match cs with
    | c :: rest => if c = '-' then rest else cs
    | [] => cs
  (List.range (body.length + 1)).any
    (fun k => intPartOK (body.take k) && fracPartLax (body.drop k))

/-- The strict decimal grammar of the spec: optional sign, integer part `0`
or `[1-9][0-9]*`, optional fractional part of a literal dot and digits.
This definition follows the spec's words, for comparison with the source's
`laxDecimalMatch`. -/
def strictDecimalMatch (t : String) : Bool :=
  let cs := t.data
  let body := match cs with
    | c :: rest => if c = '-' then rest else cs
    | [] => cs
  (List.range (body.length + 1)).any
    (fun k => intPartOK (body.take k) && fracPartStrict (body.drop k))

/-- Numeric value of a digit list. -/
def digitsToNat (l : List Char) : Nat :=
  l.foldl (fun a c => a * 10 + (c.toNat - 48)) 0

/-!
Exact rational arithmetic written through `mkRat` so that every model
computation reduces inside the kernel.  The bridging theorems `qAdd_eq`,
`qMul_eq`, `qNeg_eq`, `qInv_eq` and `qDiv_eq` below prove these agree with
the field operations of ℚ.
-/

def qAdd (a b : ℚ) : ℚ := mkRat (a.num * b.den + b.num * a.den) (a.den * b.den)

def qMul (a b : ℚ) : ℚ := mkRat (a.num * b.num) (a.den * b.den)

def qNeg (a : ℚ) : ℚ := mkRat (-a.num) a.den

def qInv (a : ℚ) : ℚ :=
  if 0 ≤ a.num then mkRat a.den a.num.toNat else mkRat (-(a.den : Int)) (-a.num).toNat

def qDiv (a b : ℚ) : ℚ := qMul a (qInv b)

/-- `q ^ n` by repeated `qMul`. -/
def qPowNat (q : ℚ) : Nat → ℚ
  | 0 => 1
  | n + 1 => qMul (qPowNat q n) q

/-- `q ^ z` for an integer exponent. -/
def qPowInt (q : ℚ) (z : Int) : ℚ :=
  if 0 ≤ z then qPowNat q z.toNat else qInv (qPowNat q (-z).toNat)

/-- `std::stod`: parse the longest numeric prefix — optional sign, integer
digits, optional fraction after a literal dot, optional decimal exponent —
and ignore the rest of the string.  (Out-of-range values cannot arise over
ℚ; the engine only calls this after a regex match, so some digit exists.) -/
def stodModel (t : String) : ℚ :=
  let cs := t.data
  let (neg, cs1) := match cs with
    | c :: rest =>
      if c = '-' then (true, rest)
      else if c = '+' then (false, rest) else (false, cs)
    | [] => (false, cs)
  let ip := cs1.takeWhile (·.isDigit)
  let cs2 := cs1.dropWhile (·.isDigit)
  let (fp, cs3) := match cs2 with
    | c :: rest =>
      if c = '.' then (rest.takeWhile (·.isDigit), rest.dropWhile (·.isDigit))
      else (([] : List Char), cs2)
    | [] => ([], cs2)
  let expPart : Int := match cs3 with
    | c :: rest =>
      if c = 'e' || c = 'E' then
        match rest with
        | d :: ds =>
          if d = '-' then -(digitsToNat (ds.takeWhile (·.isDigit)) : Int)
          else if d = '+' then (digitsToNat (ds.takeWhile (·.isDigit)) : Int)
          else (digitsToNat (rest.takeWhile (·.isDigit)) : Int)
        | [] => 0
      else 0
    | [] => 0
  let mag : ℚ :=
    qMul (qAdd (mkRat (digitsToNat ip) 1) (mkRat (digitsToNat fp) (10 ^ fp.length)))
      (qPowInt (mkRat 10 1) expPart)
  if neg then qNeg mag else mag

/-- `CellValueGetter::operator()(const std::string&)` (formula.cpp): match
the string against the source's regex, convert with `std::stod` on a match,
raise `FormulaError(Value)` otherwise. -/
def cellValueGetterStr (t : String) : Except FECat ℚ :=
  if laxDecimalMatch t then .ok (stodModel t) else .error .Value

instance {ε α : Type} [DecidableEq ε] [DecidableEq α] : DecidableEq (Except ε α) :=
  fun a b =>
    match a, b with
    | .ok x, .ok y =>
      if h : x = y then .isTrue (by rw [h]) else .isFalse (by simp [h])
    | .ok _, .error _ => .isFalse (by simp)
    | .error _, .ok _ => .isFalse (by simp)
    | .error x, .error y =>
      if h : x = y then .isTrue (by rw [h]) else .isFalse (by simp [h])

/-- `CellInterface::Value`: string, double, or formula error. -/
inductive CIValue where
  | str (s : String)
  | num (q : ℚ)
  | err (e : FECat)
deriving DecidableEq, Repr

/-- Write a freshly evaluated double into a formula cell's cache
(`cache_ = *value` in `FormulaCellValue::GetValue`). -/
def setCache (s : Sheet) (p : Pos) (v : ℚ) : Sheet :=
  updateCell s p (fun c =>
    match c.val with
    | .formula ast _ => { c with val := .formula ast (some v) }
    | _ => c)

/-- `FormulaAST::Execute` with the lookup closure of `Formula::Evaluate`
(formula.cpp), the `FormulaError` catch of `Formula::Evaluate`, and
`Cell::GetValue` → `FormulaCellValue::GetValue` inlined at the `cellRef`
case (those are the functions the closure calls through the sheet).  The
sheet is threaded because nested evaluation fills caches; exceptions are the
`Except.error` results and propagate left to right.  Arithmetic is modelled
from the spec: division raises `Div0` on a zero divisor.  `none` is fuel
exhaustion, which a cyclic reference would produce. -/
def evalGo (descend : Sheet → Expr → Option (Except FECat ℚ × Sheet)) :
    Sheet → Expr → Option (Except FECat ℚ × Sheet)
  | s, .num q => some (.ok q, s)
  | s, .add a b =>
    match evalGo descend s a with
    | none => none
    | some (.error e, s1) => some (.error e, s1)
    | some (.ok va, s1) =>
      match evalGo descend s1 b with
      | none => none
      | some (.error e, s2) => some (.error e, s2)
      | some (.ok vb, s2) => some (.ok (qAdd va vb), s2)
  | s, .div a b =>
    match evalGo descend s a with
    | none => none
    | some (.error e, s1) => some (.error e, s1)
    | some (.ok va, s1) =>
      match evalGo descend s1 b with
      | none => none
      | some (.error e, s2) => some (.error e, s2)
      | some (.ok vb, s2) =>
        if vb = 0 then some (.error .Div0, s2) else some (.ok (qDiv va vb), s2)
  | s, .cellRef p =>
    match lookupCell s p with
    | none => some (.ok 0, s)
    | some c =>
      match c.val with
      | .empty => some (.ok 0, s)
      | .text t => some (cellValueGetterStr (textDisplay t), s)
      | .formula ast cache =>
        match cache with
        | some v => some (.ok v, s)
        | none =>
          match descend s ast with
          | none => none
          | some (.ok v, s1) => some (.ok v, setCache s1 p v)
          | some (.error e, s1) => some (.error e, s1)

/-- Fuel wrapper for `evalGo`: `fuel` bounds the formula-chasing depth; a
cyclic reference chain would exhaust it. -/
def evalExpr : Nat → Sheet → Expr → Option (Except FECat ℚ × Sheet)
  | 0, _, _ => none
  | fuel + 1, s, e => evalGo (evalExpr fuel) s e

/-- `Cell::GetValue` (cell.cpp) on the present cell at `p`, dispatching on
the value variant; the formula branch is `FormulaCellValue::GetValue`:
return the cache when filled, otherwise evaluate, caching only a double
result.  `none` is a call on an absent cell or fuel exhaustion. -/
def cellGetValue (fuel : Nat) (s : Sheet) (p : Pos) : Option (CIValue × Sheet) :=
  match lookupCell s p with
  | none => none
  | some c =>
    match c.val with
    | .empty => some (.num 0, s)
    | .text t => some (.str (textDisplay t), s)
    | .formula ast cache =>
      match cache with
      | some v => some (.num v, s)
      | none =>
        match evalExpr fuel s ast with
        | none => none
        | some (.ok v, s1) => some (.num v, setCache s1 p v)
        | some (.error e, s1) => some (.err e, s1)

/-- `Cell::GetText` (cell.cpp): raw text of the value; formulas are the
canonical printed expression behind `=` (the printing itself is the external
collaborator, kept abstract). -/
def cellGetText : CVal → Option String
  | .empty => some ""
  | .text t => some t
  | .formula _ _ => none

/-- The structural errors `Cell::Set` can raise: `FormulaException` from
`TryCreateCell` and `CircularDependencyException`, plus the engine-boundary
`InvalidPositionException` of `Sheet::SetCell`. -/
inductive SErr where
  | formulaException
  | circularDependency
  | invalidPosition
deriving DecidableEq, Repr

/-- Outcome of an edit: success with the new state, a structural error
carrying the state as it stands when the exception leaves `Set`, or `ub`
for a run that dereferences a null cell pointer (or exhausts fuel). -/
inductive SetOutcome where
  | ok (s : Sheet)
  | err (e : SErr) (s : Sheet)
  | ub
deriving DecidableEq, Repr

/-- `Cell::TryCreateCell` (cell.cpp): a formula candidate for text of length
at least two starting with `FORMULA_SIGN`, a text candidate for other
non-empty text, an empty candidate otherwise; a parse failure becomes
`FormulaException`.  The external `ParseFormula` is the parameter `P`
(spec: `ParseFormula(expression) → AST | throws FormulaException`). -/
def tryCreateCell (P : String → Option Expr) (text : String) : Except SErr CVal :=
  match text.data with
  | c :: d :: rest =>
    if c = '=' then
      match P (String.mk (d :: rest)) with
      | some ast => .ok (.formula ast none)
      | none => .error .formulaException
    else .ok (.text text)
  | [_] => .ok (.text text)
  | [] => .ok .empty

/-- `Cell::HasCircularDependency` (cell.cpp): depth-first search from the
candidate's reference list following each visited cell's current formula
references; `reference` is the cell running `Set`.  `visited` holds cell
pointers (`Option Pos`, `none` being the null pointer a reference to an
absent position produces).  The result `none` is the undefined behaviour of
recursing into a null pointer; `some (b, vis)` is the C++ result with the
final visited set. -/
def dfsGo (s : Sheet) (reference : Pos)
    (descend : List Pos → List (Option Pos) → Option (Bool × List (Option Pos))) :
    List Pos → List (Option Pos) → Option (Bool × List (Option Pos))
  | [], vis => some (false, vis)
  | r :: rest, vis =>
    match lookupCell s r with
    | none =>
      if (none : Option Pos) ∈ vis then dfsGo s reference descend rest vis
      else none
    | some c =>
      if r = reference then some (true, vis)
      else if (some r : Option Pos) ∈ vis then dfsGo s reference descend rest vis
      else
        match descend (refsOfCVal c.val) (vis ++ [some r]) with
        | none => none
        | some (true, vis1) => some (true, vis1)
        | some (false, vis1) => dfsGo s reference descend rest vis1

/-- Fuel wrapper for `dfsGo`: `fuel` bounds the recursion depth, which the
growing visited set keeps below the number of cells. -/
def hasCircularDependency (s : Sheet) (reference : Pos) :
    Nat → List Pos → List (Option Pos) → Option (Bool × List (Option Pos))
  | 0, _, _ => none
  | fuel + 1, refs, vis => dfsGo s reference (hasCircularDependency s reference fuel) refs vis

/-- `Cell::RemoveOldConnections` (cell.cpp): erase `this` from the incoming
set of every out-neighbour of `p`, then clear `p`'s outgoing set. -/
def removeOldConnections (s : Sheet) (p : Pos) : Sheet :=
  match lookupCell s p with
  | none => s
  | some cp =>
    mapCells s (fun q c =>
      let c1 := if q ∈ cp.outE then { c with inE := c.inE.filter (· ≠ p) } else c
      if q = p then { c1 with outE := [] } else c1)

/-- `Cell::EstablishNewConnections` (cell.cpp): for each referenced
position, insert the target into `p`'s outgoing set and `p` into the
target's incoming set.  A referenced position with no present cell makes the
source insert and then dereference a null pointer: `none`. -/
def establishNewConnections : Sheet → Pos → List Pos → Option Sheet
  | s, _, [] => some s
  | s, p, r :: rest =>
    match lookupCell s r with
    | none => none
    | some _ =>
      let s1 := updateCell s p (fun c => { c with outE := setInsert c.outE r })
      let s2 := updateCell s1 r (fun c => { c with inE := setInsert c.inE p })
      establishNewConnections s2 p rest

/-- Clear a formula cell's cache (`FormulaCellValue::InvalidateCache`). -/
def clearCache (c : Cell) : Cell :=
  match c.val with
  | .formula ast _ => { c with val := .formula ast none }
  | _ => c

/-- `Cell::InvalidateReferencedCellsCache` (cell.cpp) walking the cell whose
incoming list is `asc`: on a visited entry the source `return`s, abandoning
the remaining siblings; otherwise it marks the entry visited and, when the
entry is a formula cell with a filled cache, clears the cache and recurses
into that cell's incoming list.  `none` is fuel exhaustion. -/
def invGo (descend : Sheet → List Pos → List Pos → Option (Sheet × List Pos)) :
    Sheet → List Pos → List Pos → Option (Sheet × List Pos)
  | s, [], vis => some (s, vis)
  | s, x :: rest, vis =>
    if x ∈ vis then some (s, vis)
    else
      let vis1 := vis ++ [x]
      match lookupCell s x with
      | none => invGo descend s rest vis1
      | some c =>
        match c.val with
        | .formula _ (some _) =>
          let s1 := updateCell s x (fun cc => clearCache cc)
          let ascx := match lookupCell s1 x with
            | some cx => cx.inE
            | none => []
          match descend s1 ascx vis1 with
          | none => none
          | some (s2, vis2) => invGo descend s2 rest vis2
        | _ => invGo descend s rest vis1

/-- Fuel wrapper for `invGo`: `fuel` bounds the recursion depth, which the
growing visited set keeps below the number of cells. -/
def invalidateReferencedCellsCache :
    Nat → Sheet → List Pos → List Pos → Option (Sheet × List Pos)
  | 0, _, _, _ => none
  | fuel + 1, s, asc, vis => invGo (invalidateReferencedCellsCache fuel) s asc vis

/-- `Cell::Set` (cell.cpp) on the present cell at `p`: build the candidate
(`FormulaException` propagates untouched), run the cycle check seeded with
the cell itself (`CircularDependencyException` discards the candidate),
then swap the value in, detach the old out-edges, attach the new ones, and
invalidate the transitive dependents' caches. -/
def cellSet (P : String → Option Expr) (s : Sheet) (p : Pos) (text : String) :
    SetOutcome :=
  match tryCreateCell P text with
  | .error e => .err e s
  | .ok cand =>
    match hasCircularDependency s p (s.length + 1) (refsOfCVal cand) [some p] with
    | none => .ub
    | some (true, _) => .err .circularDependency s
    | some (false, _) =>
      let s1 := updateCell s p (fun c => { c with val := cand })
      let s2 := removeOldConnections s1 p
      match tryInterpretAsFormula cand with
      | some f =>
        match establishNewConnections s2 p (engineRefs (cellsOf f.1)) with
        | none => .ub
        | some s3 =>
          match invalidateReferencedCellsCache (s3.length + 1) s3 (ascAt s3 p) [p] with
          | none => .ub
          | some (s4, _) => .ok s4
      | none =>
        match invalidateReferencedCellsCache (s2.length + 1) s2 (ascAt s2 p) [p] with
        | none => .ub
        | some (s4, _) => .ok s4

/-- `Cell::Clear` (cell.cpp): detach the out-edges, invalidate the
dependents' caches, and replace the value with Empty; the incoming set is
kept. -/
def cellClear (s : Sheet) (p : Pos) : Option Sheet :=
  let s1 := removeOldConnections s p
  match invalidateReferencedCellsCache (s1.length + 1) s1 (ascAt s1 p) [p] with
  | none => none
  | some (s2, _) =>
    some (updateCell s2 p (fun c => { c with val := .empty }))

/-- Modelled from the spec: `Sheet::SetCell` (`sheet.cpp` is not under
`src/`) — validate the position, ensure a cell exists at it, and delegate to
`Cell::Set`. -/
def sheetSetCell (P : String → Option Expr) (s : Sheet) (p : Pos)
    (text : String) : SetOutcome :=
  if posValid p then
    let s0 := match lookupCell s p with
      | some _ => s
      | none => s ++ [(p, ⟨.empty, [], []⟩)]
    cellSet P s0 p text
  else .err .invalidPosition s

/-- Modelled from the spec: `Sheet::ClearCell` — validate, no-op on an
absent slot, otherwise delegate to `Cell::Clear`. -/
def sheetClearCell (s : Sheet) (p : Pos) : Option Sheet :=
  if posValid p then
    match lookupCell s p with
    | none => some s
    | some _ => cellClear s p
  else some s

/-! Concrete positions (first row) used by the concrete runs below. -/

def posA1 : Pos := ⟨0, 0⟩

def posB1 : Pos := ⟨0, 1⟩

def posC1 : Pos := ⟨0, 2⟩

def posD1 : Pos := ⟨0, 3⟩

def posE1 : Pos := ⟨0, 4⟩

/-- A concrete instance of the external parser for the runs below: the
formula bodies the scenario uses, mapped to their ASTs. -/
def demoParse : String → Option Expr := fun t =>
  if t = "A1" then some (.cellRef posA1)
  else if t = "B1" then some (.cellRef posB1)
  else if t = "B1+C1" then some (.add (.cellRef posB1) (.cellRef posC1))
  else if t = "C1" then some (.cellRef posC1)
  else none

/-- Extract the new sheet of a successful edit. -/
def okState : SetOutcome → Option Sheet
  | .ok s => some s
  | _ => none

/-- The run exhibiting the invalidation defect: A1 holds "1"; B1 and C1 both
hold `=A1`; D1 holds `=B1+C1`; E1 holds `=C1`; reading D1 and then E1 fills
every formula cache; finally A1 is edited to "2", which must invalidate the
caches of all four dependent formula cells. -/
def invalidationRun : Option Sheet := do
  let s1 ← okState (sheetSetCell demoParse [] posA1 "1")
  let s2 ← okState (sheetSetCell demoParse s1 posB1 "=A1")
  let s3 ← okState (sheetSetCell demoParse s2 posC1 "=A1")
  let s4 ← okState (sheetSetCell demoParse s3 posD1 "=B1+C1")
  let s5 ← okState (sheetSetCell demoParse s4 posE1 "=C1")
  let (_, s6) ← cellGetValue 10 s5 posD1
  let (_, s7) ← cellGetValue 10 s6 posE1
  okState (sheetSetCell demoParse s7 posA1 "2")

/-- The cache stored at `p`, if `p` is a present formula cell. -/
def cacheAt (s : Sheet) (p : Pos) : Option (Option ℚ) :=
  (lookupCell s p).bind fun c =>
    match c.val with
    | .formula _ cache => some cache
    | _ => none

/-- `Formula::Evaluate` of the formula stored at `p` run from scratch
against `s` (the cache is ignored, only the evaluation result is kept). -/
def freshEvalAt (fuel : Nat) (s : Sheet) (p : Pos) : Option (Except FECat ℚ) :=
  (lookupCell s p).bind fun c =>
    match c.val with
    | .formula ast _ => (evalExpr fuel s ast).map Prod.fst
    | _ => none

/-- The processed referenced-position list of the cell at `p` (empty for an
absent cell or a non-formula value) — the edges the cycle-check DFS walks. -/
def refsAt (s : Sheet) (p : Pos) : List Pos :=
  match lookupCell s p with
  | some c => refsOfCVal c.val
  | none => []

/-- The formula-reference edge relation of the current sheet. -/
def refEdge (s : Sheet) (a b : Pos) : Prop := b ∈ refsAt s a

/-- The out-edge relation of the stored graph (membership in the
`descending_cells_` sets); it coincides with `refEdge` whenever invariant
I1 (`OutMatchesRefs`) holds. -/
def outEdge (s : Sheet) (a b : Pos) : Prop :=
  ∃ c, lookupCell s a = some c ∧ b ∈ c.outE

/-- The number of stored cells not yet in the DFS visited set: the measure
that bounds the cycle-check recursion depth. -/
def freshCount (s : Sheet) (vis : List (Option Pos)) : Nat :=
  ((s.map Prod.fst).filter (fun k => !((some k : Option Pos) ∈ vis))).length

/-- Acyclicity of the reference graph: no position lies on a nonempty
reference cycle. -/
def Acyclic (s : Sheet) : Prop := ∀ a, ¬ Relation.TransGen (refEdge s) a a

/-- Invariant I2 — edge symmetry: for present cells, membership in an
outgoing set mirrors membership in the target's incoming set. -/
def EdgeSym (s : Sheet) : Prop :=
  ∀ a ca b cb, lookupCell s a = some ca → lookupCell s b = some cb →
    (b ∈ ca.outE ↔ a ∈ cb.inE)

/-- Invariant I1 — every present cell's outgoing set holds exactly its
value's referenced positions (so the out-edge graph and the
formula-reference graph coincide). -/
def OutMatchesRefs (s : Sheet) : Prop :=
  ∀ a ca, lookupCell s a = some ca → ∀ b, b ∈ ca.outE ↔ b ∈ refsOfCVal ca.val

/-- All positions a present cell references resolve to present cells (the
state every undefined-behaviour-free run maintains, since the cycle-check
DFS dereferences the cell of every reference it meets). -/
def ClosedRefs (s : Sheet) : Prop :=
  ∀ a c, lookupCell s a = some c → ∀ b, b ∈ refsOfCVal c.val → (lookupCell s b).isSome

/-- Both edge sets point at present cells (maintained because cells are
never destroyed and edges are only ever attached to present cells). -/
def EdgesPresent (s : Sheet) : Prop :=
  ∀ a c, lookupCell s a = some c → ∀ b, b ∈ c.outE ∨ b ∈ c.inE →
    (lookupCell s b).isSome

/-- A small sheet used by the witnesses: A1 holds the text "3", B1 holds the
uncached formula `=A1`, with the matching symmetric edges. -/
def witnessSheet : Sheet :=
  [(posA1, ⟨.text "3", [], [posB1]⟩),
   (posB1, ⟨.formula (.cellRef posA1) none, [posA1], []⟩)]

end Spreadsheet

namespace Spreadsheet

/-- C1 — the cache validity invariant I4 fails on the code: in
`invalidationRun`, the final edit of A1 leaves the formula cell E1 (which
reads C1, which reads A1) with its stale cached value 1, while evaluating
E1's formula from scratch against the final sheet yields 2.  The cause is
`Cell::InvalidateReferencedCellsCache` returning — instead of continuing
with the remaining dependents — when it meets an already-visited cell
(D1 is reached first through B1, so the walk from C1 aborts before E1). -/
theorem c1_stale_cache_after_edit :
    invalidationRun.map (fun s => cacheAt s posE1) = some (some (some 1))
      ∧ invalidationRun.map (fun s => freshEvalAt 10 s posE1)
          = some (some (.ok 2))
      ∧ (1 : ℚ) ≠ 2 := by
  refine ⟨by decide, by decide, by decide⟩

/-- C4 — rendering a `FormulaError` does not produce the token of its kind:
`operator<<(std::ostream&, FormulaError)` prints `#DIV/0!` for every
category, so `Ref` and `Value` are not rendered as `#REF!` and `#VALUE!`. -/
theorem c4_error_tokens_ignored :
    formulaErrorMsg .Ref = "#DIV/0!" ∧ formulaErrorMsg .Ref ≠ "#REF!"
      ∧ formulaErrorMsg .Value = "#DIV/0!"
      ∧ formulaErrorMsg .Value ≠ "#VALUE!"
      ∧ formulaErrorMsg .Div0 = "#DIV/0!" := by
  refine ⟨rfl, by decide, rfl, by decide, rfl⟩

/-- C5 — strict decimal coercion fails on the code: the regex in
`CellValueGetter` leaves the fraction dot unescaped, so the string "1x5"
matches and is converted by `std::stod` to the double 1 instead of raising
`FormulaError(Value)`; "1x5" does not match the claim's strict grammar. -/
theorem c5_lax_decimal_coercion :
    cellValueGetterStr "1x5" = .ok 1
      ∧ laxDecimalMatch "1x5" = true
      ∧ strictDecimalMatch "1x5" = false := by
  refine ⟨by decide, by decide, by decide⟩

/-- C6 — `GetReferencedCells` can return duplicates: `Formula::Formula`
calls `std::unique` before `std::sort`, so an AST cell sequence with
non-adjacent duplicates, such as the one of `A1+B1+A1`, yields the sorted
but non-deduplicated list [A1, A1, B1]. -/
theorem c6_unique_before_sort :
    engineRefs [posA1, posB1, posA1] = [posA1, posA1, posB1]
      ∧ ¬ (engineRefs [posA1, posB1, posA1]).Nodup := by
  refine ⟨by decide, by decide⟩

/-- C8 — a referenced never-set position is not materialized: setting A1 to
`=B1` on the empty sheet reaches the cycle-check DFS with B1 still absent,
`GetCell(B1)` yields a null pointer, and the search recurses into it (the
run is undefined behaviour, `SetOutcome.ub`), instead of B1 having been
materialized as an Empty cell before the search. -/
theorem c8_no_materialization_before_search :
    sheetSetCell (fun t => if t = "B1" then some (.cellRef posB1) else none)
        [] posA1 "=B1" = .ub
      ∧ hasCircularDependency [(posA1, ⟨.empty, [], []⟩)] posA1 2 [posB1]
          [some posA1] = none := by
  refine ⟨by decide, by decide⟩

/-- C10 — `Cell::GetReferencedCells` on an Empty or Text cell dereferences
the null pointer returned by `TryInterpretAsFormula` instead of returning an
empty list; only a formula value yields a list. -/
theorem c10_referenced_cells_null_deref :
    cellGetReferencedCells (.text "hi") = none
      ∧ cellGetReferencedCells .empty = none
      ∧ cellGetReferencedCells (.formula (.cellRef posB1) none) = some [posB1] := by
  refine ⟨rfl, rfl, by decide⟩

/-! Bridging lemmas: the `mkRat`-based arithmetic of the model agrees with
the field operations of ℚ. -/

theorem qAdd_eq (a b : ℚ) : qAdd a b = a + b := by
  have ha : ((a.den : ℚ)) ≠ 0 := Nat.cast_ne_zero.mpr a.den_nz
  have hb : ((b.den : ℚ)) ≠ 0 := Nat.cast_ne_zero.mpr b.den_nz
  rw [qAdd, Rat.mkRat_eq_div]
  push_cast
  conv_rhs => rw [← Rat.num_div_den a, ← Rat.num_div_den b,
    div_add_div _ _ ha hb]
  ring_nf

theorem qMul_eq (a b : ℚ) : qMul a b = a * b := by
  have ha : ((a.den : ℚ)) ≠ 0 := Nat.cast_ne_zero.mpr a.den_nz
  have hb : ((b.den : ℚ)) ≠ 0 := Nat.cast_ne_zero.mpr b.den_nz
  rw [qMul, Rat.mkRat_eq_div]
  push_cast
  conv_rhs => rw [← Rat.num_div_den a, ← Rat.num_div_den b]
  rw [div_mul_div_comm]

theorem qNeg_eq (a : ℚ) : qNeg a = -a := by
  rw [qNeg, Rat.mkRat_eq_div]
  push_cast
  rw [neg_div, Rat.num_div_den]

theorem qInv_eq (a : ℚ) : qInv a = a⁻¹ := by
  rw [qInv]
  by_cases h : 0 ≤ a.num
  · rw [if_pos h, Rat.mkRat_eq_div]
    have h2 : ((a.num.toNat : ℚ)) = ((a.num : ℤ) : ℚ) := by
      exact_mod_cast congrArg (fun z : ℤ => (z : ℚ)) (Int.toNat_of_nonneg h)
    rw [h2]
    conv_rhs => rw [← Rat.num_div_den a]
    rw [inv_div]
    push_cast
    rfl
  · rw [if_neg h, Rat.mkRat_eq_div]
    have h2 : (((-a.num).toNat : ℚ)) = ((-a.num : ℤ) : ℚ) := by
      exact_mod_cast congrArg (fun z : ℤ => (z : ℚ))
        (Int.toNat_of_nonneg (by omega : (0 : ℤ) ≤ -a.num))
    rw [h2]
    push_cast
    rw [div_neg, ← neg_div, neg_neg]
    conv_rhs => rw [← Rat.num_div_den a]
    rw [inv_div]

theorem qDiv_eq (a b : ℚ) : qDiv a b = a / b := by
  rw [qDiv, qMul_eq, qInv_eq, div_eq_mul_inv]

theorem qPowNat_eq (q : ℚ) (n : Nat) : qPowNat q n = q ^ n := by
  induction n with
  | zero => rfl
  | succ n ih => rw [qPowNat, qMul_eq, ih, pow_succ]

theorem qPowInt_eq (q : ℚ) (z : Int) : qPowInt q z = q ^ z := by
  rw [qPowInt]
  by_cases h : 0 ≤ z
  · rw [if_pos h, qPowNat_eq, ← zpow_natCast, Int.toNat_of_nonneg h]
  · rw [if_neg h, qInv_eq, qPowNat_eq, ← zpow_natCast,
      Int.toNat_of_nonneg (by omega : (0 : ℤ) ≤ -z), zpow_neg, inv_inv]

/-! `Cell::Set` raises its structural errors before any state mutation: a
shared lemma giving the atomicity of rejected edits. -/

theorem cellSet_err_state (P : String → Option Expr) (s : Sheet) (p : Pos)
    (text : String) (e : SErr) (s2 : Sheet)
    (h : cellSet P s p text = .err e s2) : s2 = s := by
  unfold cellSet at h
  split at h
  · exact ((SetOutcome.err.injEq _ _ _ _).mp h).2.symm
  · split at h
    · simp at h
    · exact ((SetOutcome.err.injEq _ _ _ _).mp h).2.symm
    · dsimp only at h
      split at h
      · split at h
        · simp at h
        · try dsimp only at h
          split at h
          · simp at h
          · simp at h
      · try dsimp only at h
        split at h
        · simp at h
        · simp at h

/-- C2 — atomicity of rejected edits: whenever `Cell::Set` fails with a
structural error (`FormulaException` from the parse, or
`CircularDependencyException` from the cycle check), the state carried out
of the edit is exactly the pre-edit sheet: both exceptions are raised
before the first mutation of any cell, value, edge set or cache. -/
theorem c2_rejected_edit_atomic (P : String → Option Expr) (s : Sheet)
    (p : Pos) (text : String) (e : SErr) (s2 : Sheet)
    (h : cellSet P s p text = .err e s2) : s2 = s :=
  cellSet_err_state P s p text e s2 h

/-- Witness for C2: a self-referencing edit of A1 on `witnessSheet` is
rejected with `CircularDependencyException` and the carried state is the
pre-edit sheet. -/
theorem c2_witness :
    cellSet demoParse witnessSheet posA1 "=A1"
        = .err .circularDependency witnessSheet
      ∧ witnessSheet = witnessSheet := by
  have h : cellSet demoParse witnessSheet posA1 "=A1"
      = .err .circularDependency witnessSheet := by decide
  exact ⟨h, c2_rejected_edit_atomic demoParse witnessSheet posA1 "=A1"
    .circularDependency witnessSheet h⟩

/-! Lookup and update plumbing. -/

theorem lookup_mapCells (s : Sheet) (g : Pos → Cell → Cell) (q : Pos) :
    lookupCell (mapCells s g) q = (lookupCell s q).map (g q) := by
  induction s with
  | nil => rfl
  | cons hd tl ih =>
    obtain ⟨k, c⟩ := hd
    by_cases h : k = q
    · subst h
      simp [mapCells, lookupCell]
    · simp only [mapCells, List.map_cons, lookupCell, if_neg h]
      exact ih

theorem lookup_updateCell (s : Sheet) (p : Pos) (f : Cell → Cell) (q : Pos) :
    lookupCell (updateCell s p f) q
      = (lookupCell s q).map (fun c => if q = p then f c else c) :=
  lookup_mapCells s _ q

theorem mem_setInsert (l : List Pos) (x y : Pos) :
    y ∈ setInsert l x ↔ y ∈ l ∨ y = x := by
  unfold setInsert
  by_cases h : x ∈ l
  · rw [if_pos h]
    constructor
    · exact Or.inl
    · rintro (hy | rfl) <;> assumption
  · rw [if_neg h]
    simp

/-- C7 — the cache fill rule of `FormulaCellValue::GetValue`: with a filled
cache, `GetValue` returns the cached number and leaves the sheet untouched
regardless of fuel (so without any re-evaluation); with an empty cache, a
numeric evaluation result is returned and written into the cache, and an
error result is returned as the value with no cache write, the cell's cache
remaining empty. -/
theorem c7_cache_fill_rule (fuel : Nat) (s : Sheet) (p : Pos) (c : Cell)
    (ast : Expr) (cache : Option ℚ)
    (hc : lookupCell s p = some c) (hv : c.val = .formula ast cache) :
    (∀ v, cache = some v → cellGetValue fuel s p = some (.num v, s))
      ∧ (cache = none → ∀ v s1, evalExpr fuel s ast = some (.ok v, s1) →
          cellGetValue fuel s p = some (.num v, setCache s1 p v)
            ∧ (lookupCell s1 p = some c →
                cacheAt (setCache s1 p v) p = some (some v)))
      ∧ (cache = none → ∀ e s1, evalExpr fuel s ast = some (.error e, s1) →
          cellGetValue fuel s p = some (.err e, s1)
            ∧ (lookupCell s1 p = some c → cacheAt s1 p = some none)) := by
  refine ⟨?_, ?_, ?_⟩
  · intro v hcache
    subst hcache
    simp [cellGetValue, hc, hv]
  · intro hcache v s1 he
    subst hcache
    constructor
    · simp [cellGetValue, hc, hv, he]
    · intro hp1
      unfold cacheAt setCache
      rw [lookup_updateCell, hp1]
      simp [hv]
  · intro hcache e s1 he
    subst hcache
    constructor
    · simp [cellGetValue, hc, hv, he]
    · intro hp1
      unfold cacheAt
      rw [hp1]
      simp [hv]

/-- Witness for C7: on `witnessSheet`, reading the uncached formula cell B1
(`=A1` over the text "3") returns the number 3 and stores 3 in B1's cache. -/
theorem c7_witness :
    cellGetValue 2 witnessSheet posB1
        = some (.num 3, setCache witnessSheet posB1 3)
      ∧ cacheAt (setCache witnessSheet posB1 3) posB1 = some (some 3) := by
  have h := (c7_cache_fill_rule 2 witnessSheet posB1
      ⟨.formula (.cellRef posA1) none, [posA1], []⟩ (.cellRef posA1) none
      (by decide) rfl).2.1 rfl 3 witnessSheet (by decide)
  exact ⟨h.1, h.2 (by decide)⟩

/-! Cache writes preserve every cell's skeleton (`SameSkel`). -/

theorem sameSkel_refl (s : Sheet) : SameSkel s s := fun _ => rfl

theorem sameSkel_trans {s1 s2 s3 : Sheet} (h12 : SameSkel s1 s2)
    (h23 : SameSkel s2 s3) : SameSkel s1 s3 :=
  fun q => (h23 q).trans (h12 q)

theorem cellSkel_clearCache (c : Cell) : cellSkel (clearCache c) = cellSkel c := by
  cases hc : c.val <;> simp [clearCache, cellSkel, hc, refsOfCVal]

theorem sameSkel_update_clearCache (s : Sheet) (x : Pos) :
    SameSkel s (updateCell s x clearCache) := by
  intro q
  rw [lookup_updateCell]
  cases lookupCell s q with
  | none => rfl
  | some c =>
    by_cases h : q = x
    · simp [h, cellSkel_clearCache]
    · simp [h]

theorem sameSkel_setCache (s : Sheet) (p : Pos) (v : ℚ) :
    SameSkel s (setCache s p v) := by
  intro q
  unfold setCache
  rw [lookup_updateCell]
  cases lookupCell s q with
  | none => rfl
  | some c =>
    by_cases h : q = p
    · cases hc : c.val <;> simp [h, hc, cellSkel, refsOfCVal]
    · simp [h]

theorem edgesAt_of_sameSkel {s s2 : Sheet} (h : SameSkel s s2) (q : Pos) :
    edgesAt s2 q = edgesAt s q := by
  have hq := h q
  unfold edgesAt
  cases h2 : lookupCell s2 q with
  | none =>
    rw [h2] at hq
    cases h1 : lookupCell s q with
    | none => rfl
    | some c => rw [h1] at hq; simp at hq
  | some c2 =>
    rw [h2] at hq
    cases h1 : lookupCell s q with
    | none => rw [h1] at hq; simp at hq
    | some c =>
      rw [h1] at hq
      simp only [Option.map_some', Option.some.injEq] at hq
      unfold cellSkel at hq
      simp only [Option.map_some', Option.some.injEq, Prod.mk.injEq] at hq ⊢
      exact ⟨hq.2.1, hq.2.2⟩

theorem refsAt_of_sameSkel {s s2 : Sheet} (h : SameSkel s s2) (q : Pos) :
    refsAt s2 q = refsAt s q := by
  have hq := h q
  unfold refsAt
  cases h2 : lookupCell s2 q with
  | none =>
    rw [h2] at hq
    cases h1 : lookupCell s q with
    | none => rfl
    | some c => rw [h1] at hq; simp at hq
  | some c2 =>
    rw [h2] at hq
    cases h1 : lookupCell s q with
    | none => rw [h1] at hq; simp at hq
    | some c =>
      rw [h1] at hq
      simp only [Option.map_some', Option.some.injEq] at hq
      unfold cellSkel at hq
      exact congrArg Prod.fst hq

theorem edgeSym_of_sameSkel {s s2 : Sheet} (h : SameSkel s s2)
    (hs : EdgeSym s) : EdgeSym s2 := by
  intro a ca b cb ha hb
  have hea := h a
  have heb := h b
  rw [ha] at hea
  rw [hb] at heb
  cases hla : lookupCell s a with
  | none => rw [hla] at hea; simp at hea
  | some ca0 =>
    cases hlb : lookupCell s b with
    | none => rw [hlb] at heb; simp at heb
    | some cb0 =>
      rw [hla] at hea
      rw [hlb] at heb
      simp only [Option.map_some', Option.some.injEq] at hea heb
      unfold cellSkel at hea heb
      have h1 := hs a ca0 b cb0 hla hlb
      have hout : ca.outE = ca0.outE := congrArg (fun x => x.2.1) hea
      have hin : cb.inE = cb0.inE := congrArg (fun x => x.2.2) heb
      rw [hout, hin]
      exact h1

/-- The invalidation walk only clears caches: the loop body. -/
theorem invGo_skel (descend : Sheet → List Pos → List Pos → Option (Sheet × List Pos))
    (hdesc : ∀ s asc vis s2 vis2, descend s asc vis = some (s2, vis2) → SameSkel s s2) :
    ∀ asc s vis s2 vis2, invGo descend s asc vis = some (s2, vis2) → SameSkel s s2 := by
  intro asc
  induction asc with
  | nil =>
    intro s vis s2 vis2 h
    simp only [invGo, Option.some.injEq, Prod.mk.injEq] at h
    rw [← h.1]
    exact sameSkel_refl s
  | cons x rest ih =>
    intro s vis s2 vis2 h
    unfold invGo at h
    split at h
    · simp only [Option.some.injEq, Prod.mk.injEq] at h
      rw [← h.1]
      exact sameSkel_refl s
    · split at h
      · exact ih s _ s2 vis2 h
      · split at h
        · dsimp only at h
          split at h
          · exact absurd h (by simp)
          · rename_i sd visd hd
            exact sameSkel_trans (sameSkel_trans (sameSkel_update_clearCache s x)
              (hdesc _ _ _ _ _ hd)) (ih sd visd s2 vis2 h)
        · exact ih s _ s2 vis2 h

/-- The invalidation walk only clears caches. -/
theorem invalidate_skel : ∀ fuel s asc vis s2 vis2,
    invalidateReferencedCellsCache fuel s asc vis = some (s2, vis2) → SameSkel s s2 := by
  intro fuel
  induction fuel with
  | zero =>
    intro s asc vis s2 vis2 h
    exact absurd h (by simp [invalidateReferencedCellsCache])
  | succ n ih =>
    intro s asc vis s2 vis2 h
    exact invGo_skel _ (fun a b c d e hh => ih a b c d e hh) asc s vis s2 vis2 h

/-- Evaluation only fills caches: the structural body. -/
theorem evalGo_skel (descend : Sheet → Expr → Option (Except FECat ℚ × Sheet))
    (hdesc : ∀ s e r s2, descend s e = some (r, s2) → SameSkel s s2) :
    ∀ e s r s2, evalGo descend s e = some (r, s2) → SameSkel s s2 := by
  intro e
  induction e with
  | num q =>
    intro s r s2 h
    simp only [evalGo, Option.some.injEq, Prod.mk.injEq] at h
    rw [← h.2]
    exact sameSkel_refl s
  | add a b iha ihb =>
    intro s r s2 h
    unfold evalGo at h
    split at h
    · exact absurd h (by simp)
    · rename_i e1 s1 h1
      simp only [Option.some.injEq, Prod.mk.injEq] at h
      rw [← h.2]
      exact iha s _ s1 h1
    · rename_i va s1 h1
      split at h
      · exact absurd h (by simp)
      · rename_i e2 sb hb
        simp only [Option.some.injEq, Prod.mk.injEq] at h
        rw [← h.2]
        exact sameSkel_trans (iha s _ s1 h1) (ihb s1 _ sb hb)
      · rename_i vb sb hb
        simp only [Option.some.injEq, Prod.mk.injEq] at h
        rw [← h.2]
        exact sameSkel_trans (iha s _ s1 h1) (ihb s1 _ sb hb)
  | div a b iha ihb =>
    intro s r s2 h
    unfold evalGo at h
    split at h
    · exact absurd h (by simp)
    · rename_i e1 s1 h1
      simp only [Option.some.injEq, Prod.mk.injEq] at h
      rw [← h.2]
      exact iha s _ s1 h1
    · rename_i va s1 h1
      split at h
      · exact absurd h (by simp)
      · rename_i e2 sb hb
        simp only [Option.some.injEq, Prod.mk.injEq] at h
        rw [← h.2]
        exact sameSkel_trans (iha s _ s1 h1) (ihb s1 _ sb hb)
      · rename_i vb sb hb
        have hskel := sameSkel_trans (iha s _ s1 h1) (ihb s1 _ sb hb)
        split at h <;>
          (simp only [Option.some.injEq, Prod.mk.injEq] at h; rw [← h.2]; exact hskel)
  | cellRef p =>
    intro s r s2 h
    unfold evalGo at h
    split at h
    · simp only [Option.some.injEq, Prod.mk.injEq] at h
      rw [← h.2]
      exact sameSkel_refl s
    · rename_i c hlp
      split at h
      · simp only [Option.some.injEq, Prod.mk.injEq] at h
        rw [← h.2]
        exact sameSkel_refl s
      · simp only [Option.some.injEq, Prod.mk.injEq] at h
        rw [← h.2]
        exact sameSkel_refl s
      · split at h
        · simp only [Option.some.injEq, Prod.mk.injEq] at h
          rw [← h.2]
          exact sameSkel_refl s
        · split at h
          · exact absurd h (by simp)
          · rename_i v s1 hd
            simp only [Option.some.injEq, Prod.mk.injEq] at h
            rw [← h.2]
            exact sameSkel_trans (hdesc _ _ _ _ hd) (sameSkel_setCache s1 p v)
          · rename_i er s1 hd
            simp only [Option.some.injEq, Prod.mk.injEq] at h
            rw [← h.2]
            exact hdesc _ _ _ _ hd

/-- Evaluation only fills caches. -/
theorem evalExpr_skel : ∀ fuel s e r s2,
    evalExpr fuel s e = some (r, s2) → SameSkel s s2 := by
  intro fuel
  induction fuel with
  | zero =>
    intro s e r s2 h
    exact absurd h (by simp [evalExpr])
  | succ n ih =>
    intro s e r s2 h
    exact evalGo_skel _ (fun a b c d hh => ih a b c d hh) e s r s2 h

/-- Cell rewrites that keep both edge sets keep `edgesAt` everywhere. -/
theorem edgesAt_updateCell_of_preserve (s : Sheet) (p : Pos) (f : Cell → Cell)
    (hf : ∀ c, (f c).outE = c.outE ∧ (f c).inE = c.inE) (q : Pos) :
    edgesAt (updateCell s p f) q = edgesAt s q := by
  unfold edgesAt
  rw [lookup_updateCell]
  cases lookupCell s q with
  | none => rfl
  | some c =>
    by_cases h : q = p
    · simp [h, (hf c).1, (hf c).2]
    · simp [h]

/-- Pointwise equal edge sets transfer the symmetry invariant. -/
theorem edgeSym_of_edgesAt {s s2 : Sheet}
    (h : ∀ q, edgesAt s2 q = edgesAt s q) (hs : EdgeSym s) : EdgeSym s2 := by
  intro a ca b cb ha hb
  have hea := h a
  have heb := h b
  unfold edgesAt at hea heb
  rw [ha] at hea
  rw [hb] at heb
  cases hla : lookupCell s a with
  | none => rw [hla] at hea; simp at hea
  | some ca0 =>
    cases hlb : lookupCell s b with
    | none => rw [hlb] at heb; simp at heb
    | some cb0 =>
      rw [hla] at hea
      rw [hlb] at heb
      simp only [Option.map_some', Option.some.injEq, Prod.mk.injEq] at hea heb
      rw [hea.1, heb.2]
      exact hs a ca0 b cb0 hla hlb

/-- `Cell::GetValue` only fills caches. -/
theorem cellGetValue_skel (fuel : Nat) (s : Sheet) (p : Pos) (v : CIValue)
    (s2 : Sheet) (h : cellGetValue fuel s p = some (v, s2)) : SameSkel s s2 := by
  unfold cellGetValue at h
  split at h
  · exact absurd h (by simp)
  · rename_i c hlp
    split at h
    · simp only [Option.some.injEq, Prod.mk.injEq] at h
      rw [← h.2]
      exact sameSkel_refl s
    · simp only [Option.some.injEq, Prod.mk.injEq] at h
      rw [← h.2]
      exact sameSkel_refl s
    · split at h
      · simp only [Option.some.injEq, Prod.mk.injEq] at h
        rw [← h.2]
        exact sameSkel_refl s
      · split at h
        · exact absurd h (by simp)
        · rename_i w s1 he
          simp only [Option.some.injEq, Prod.mk.injEq] at h
          rw [← h.2]
          exact sameSkel_trans (evalExpr_skel fuel s _ _ s1 he)
            (sameSkel_setCache s1 p w)
        · rename_i er s1 he
          simp only [Option.some.injEq, Prod.mk.injEq] at h
          rw [← h.2]
          exact evalExpr_skel fuel s _ _ s1 he

/-! `RemoveOldConnections` and `EstablishNewConnections` keep the edge sets
symmetric. -/

theorem removeOld_edgeSym (s : Sheet) (p : Pos) (hs : EdgeSym s) :
    EdgeSym (removeOldConnections s p) := by
  unfold removeOldConnections
  cases hp : lookupCell s p with
  | none => exact hs
  | some cp =>
    intro a ca b cb ha hb
    rw [lookup_mapCells] at ha hb
    cases hla : lookupCell s a with
    | none => rw [hla] at ha; simp at ha
    | some ca0 =>
      cases hlb : lookupCell s b with
      | none => rw [hlb] at hb; simp at hb
      | some cb0 =>
        rw [hla] at ha
        rw [hlb] at hb
        simp only [Option.map_some', Option.some.injEq] at ha hb
        subst ha
        subst hb
        have hsym := hs a ca0 b cb0 hla hlb
        simp only [apply_ite Cell.outE, apply_ite Cell.inE, ite_self]
        by_cases hap : a = p
        · rw [if_pos hap]
          have hca : ca0 = cp := by
            rw [hap] at hla
            rw [hla] at hp
            exact (Option.some.injEq _ _).mp hp
          simp only [List.mem_nil_iff, false_iff]
          by_cases hbo : b ∈ cp.outE
          · rw [if_pos hbo]
            simp [List.mem_filter, hap]
          · rw [if_neg hbo]
            rw [hca] at hsym
            intro hx
            exact hbo (hsym.mpr hx)
        · rw [if_neg hap]
          by_cases hbo : b ∈ cp.outE
          · rw [if_pos hbo]
            simp only [List.mem_filter, decide_eq_true_eq, Bool.not_eq_true,
              decide_eq_false_iff_not, ne_eq]
            constructor
            · intro hx
              refine ⟨hsym.mp hx, ?_⟩
              simp [hap]
            · intro hx
              exact hsym.mpr hx.1
          · rw [if_neg hbo]
            exact hsym

theorem establishStep_edgeSym (s : Sheet) (p r : Pos) (hs : EdgeSym s) :
    EdgeSym (updateCell
      (updateCell s p (fun c => { c with outE := setInsert c.outE r }))
      r (fun c => { c with inE := setInsert c.inE p })) := by
  intro a ca b cb ha hb
  rw [lookup_updateCell] at ha hb
  rw [lookup_updateCell] at ha hb
  rw [Option.map_map] at ha hb
  cases hla : lookupCell s a with
  | none => rw [hla] at ha; simp at ha
  | some ca0 =>
    cases hlb : lookupCell s b with
    | none => rw [hlb] at hb; simp at hb
    | some cb0 =>
      rw [hla] at ha
      rw [hlb] at hb
      simp only [Option.map_some', Option.some.injEq, Function.comp] at ha hb
      subst ha
      subst hb
      have hsym := hs a ca0 b cb0 hla hlb
      simp only [apply_ite Cell.outE, apply_ite Cell.inE, ite_self]
      by_cases hap : a = p <;> by_cases hbr : b = r
      · rw [if_pos hap, if_pos hbr]
        simp [mem_setInsert, hap, hbr]
      · rw [if_pos hap, if_neg hbr]
        simp [mem_setInsert, hbr, hsym, hap]
      · rw [if_neg hap, if_pos hbr]
        rw [hbr] at hsym
        simp [mem_setInsert, hbr, hap, hsym]
      · rw [if_neg hap, if_neg hbr]
        exact hsym

theorem establish_edgeSym (p : Pos) : ∀ refs s, EdgeSym s →
    ∀ s3, establishNewConnections s p refs = some s3 → EdgeSym s3 := by
  intro refs
  induction refs with
  | nil =>
    intro s hs s3 h
    simp only [establishNewConnections, Option.some.injEq] at h
    rw [← h]
    exact hs
  | cons r rest ih =>
    intro s hs s3 h
    unfold establishNewConnections at h
    split at h
    · exact absurd h (by simp)
    · exact ih _ (establishStep_edgeSym s p r hs) s3 h

/-! Materializing a fresh Empty cell (the `Sheet::SetCell` ensure step). -/

theorem lookup_append_of_some (s : Sheet) (x : Pos × Cell) (q : Pos) (c : Cell)
    (h : lookupCell s q = some c) : lookupCell (s ++ [x]) q = some c := by
  induction s with
  | nil => exact absurd h (by simp [lookupCell])
  | cons hd tl ih =>
    obtain ⟨k, c0⟩ := hd
    by_cases hk : k = q
    · rw [List.cons_append]
      simp only [lookupCell, if_pos hk] at h ⊢
      exact h
    · rw [List.cons_append]
      simp only [lookupCell, if_neg hk] at h ⊢
      exact ih h

theorem lookup_append_of_none (s : Sheet) (p : Pos) (c : Cell) (q : Pos)
    (h : lookupCell s q = none) :
    lookupCell (s ++ [(p, c)]) q = if p = q then some c else none := by
  induction s with
  | nil => simp [lookupCell]
  | cons hd tl ih =>
    obtain ⟨k, c0⟩ := hd
    by_cases hk : k = q
    · simp only [lookupCell, if_pos hk] at h
      exact absurd h (by simp)
    · rw [List.cons_append]
      simp only [lookupCell, if_neg hk] at h ⊢
      exact ih h

theorem ensure_edgeSym (s : Sheet) (p : Pos) (hs : EdgeSym s)
    (hep : EdgesPresent s) :
    EdgeSym (s ++ [(p, ⟨.empty, [], []⟩)]) := by
  intro a ca b cb ha hb
  cases hla : lookupCell s a with
  | some ca0 =>
    have hca : ca0 = ca :=
      (Option.some.injEq _ _).mp
        ((lookup_append_of_some s _ a ca0 hla).symm.trans ha)
    subst hca
    cases hlb : lookupCell s b with
    | some cb0 =>
      have hcb : cb0 = cb :=
        (Option.some.injEq _ _).mp
          ((lookup_append_of_some s _ b cb0 hlb).symm.trans hb)
      subst hcb
      exact hs a ca0 b cb0 hla hlb
    | none =>
      have hb2 := (lookup_append_of_none s p _ b hlb).symm.trans hb
      by_cases hpb : p = b
      · rw [if_pos hpb] at hb2
        have hcb : (⟨.empty, [], []⟩ : Cell) = cb := (Option.some.injEq _ _).mp hb2
        subst hcb
        simp only [List.mem_nil_iff, iff_false]
        intro hx
        have := hep a ca0 hla b (Or.inl hx)
        rw [hlb] at this
        exact absurd this (by simp)
      · rw [if_neg hpb] at hb2
        exact absurd hb2 (by simp)
  | none =>
    have ha2 := (lookup_append_of_none s p _ a hla).symm.trans ha
    by_cases hpa : p = a
    · rw [if_pos hpa] at ha2
      have hca : (⟨.empty, [], []⟩ : Cell) = ca := (Option.some.injEq _ _).mp ha2
      subst hca
      simp only [List.mem_nil_iff, false_iff]
      cases hlb : lookupCell s b with
      | some cb0 =>
        have hcb : cb0 = cb :=
          (Option.some.injEq _ _).mp
            ((lookup_append_of_some s _ b cb0 hlb).symm.trans hb)
        subst hcb
        intro hx
        have := hep b cb0 hlb a (Or.inr hx)
        rw [hla] at this
        exact absurd this (by simp)
      | none =>
        have hb2 := (lookup_append_of_none s p _ b hlb).symm.trans hb
        by_cases hpb : p = b
        · rw [if_pos hpb] at hb2
          have hcb : (⟨.empty, [], []⟩ : Cell) = cb := (Option.some.injEq _ _).mp hb2
          subst hcb
          simp
        · rw [if_neg hpb] at hb2
          exact absurd hb2 (by simp)
    · rw [if_neg hpa] at ha2
      exact absurd ha2 (by simp)

/-! Decomposition of a successful `Cell::Set`. -/

theorem tryInterpret_none_refs (v : CVal) (h : tryInterpretAsFormula v = none) :
    refsOfCVal v = [] := by
  cases v with
  | empty => rfl
  | text t => rfl
  | formula ast cache => exact absurd h (by simp [tryInterpretAsFormula])

theorem tryInterpret_some_refs (v : CVal) (f : Expr × Option ℚ)
    (h : tryInterpretAsFormula v = some f) :
    refsOfCVal v = engineRefs (cellsOf f.1) := by
  cases v with
  | empty => exact absurd h (by simp [tryInterpretAsFormula])
  | text t => exact absurd h (by simp [tryInterpretAsFormula])
  | formula ast cache =>
    simp only [tryInterpretAsFormula, Option.some.injEq] at h
    rw [← h]
    rfl

theorem cellSet_ok_decomp (P : String → Option Expr) (s : Sheet) (p : Pos)
    (text : String) (s4 : Sheet) (h : cellSet P s p text = .ok s4) :
    ∃ cand vis s3 vis2,
      tryCreateCell P text = .ok cand
        ∧ hasCircularDependency s p (s.length + 1) (refsOfCVal cand) [some p]
            = some (false, vis)
        ∧ establishNewConnections
            (removeOldConnections
              (updateCell s p (fun c => { c with val := cand })) p)
            p (refsOfCVal cand) = some s3
        ∧ invalidateReferencedCellsCache (s3.length + 1) s3 (ascAt s3 p) [p]
            = some (s4, vis2) := by
  unfold cellSet at h
  split at h
  · simp at h
  · rename_i cand htc
    split at h
    · simp at h
    · simp at h
    · rename_i vis hdfs
      dsimp only at h
      split at h
      · rename_i f htif
        split at h
        · simp at h
        · rename_i s3 hest
          split at h
          · simp at h
          · rename_i s4b vis2 hinv
            simp only [SetOutcome.ok.injEq] at h
            subst h
            refine ⟨cand, vis, s3, vis2, htc, hdfs, ?_, hinv⟩
            rw [tryInterpret_some_refs cand f htif]
            exact hest
      · rename_i htif
        split at h
        · simp at h
        · rename_i s4b vis2 hinv
          simp only [SetOutcome.ok.injEq] at h
          subst h
          refine ⟨cand, vis, _, vis2, htc, hdfs, ?_, hinv⟩
          rw [tryInterpret_none_refs cand htif]
          rfl

/-- C9 — invariant I2, edge symmetry: starting from a sheet whose edges are
symmetric, every public operation — `Cell::Set` (successful or rejected),
`Cell::Clear`, `Cell::GetValue`, and (given that edges only point at present
cells) `Sheet::SetCell` and `Sheet::ClearCell` — leaves a sheet whose edges
are again symmetric: B is in A's outgoing set exactly when A is in B's
incoming set. -/
theorem c9_edge_symmetry (s : Sheet) (hs : EdgeSym s) :
    (∀ P p text s2, cellSet P s p text = .ok s2 → EdgeSym s2)
      ∧ (∀ P p text e s2, cellSet P s p text = .err e s2 → EdgeSym s2)
      ∧ (∀ p s2, cellClear s p = some s2 → EdgeSym s2)
      ∧ (∀ fuel p v s2, cellGetValue fuel s p = some (v, s2) → EdgeSym s2)
      ∧ (EdgesPresent s →
          ∀ P p text s2, sheetSetCell P s p text = .ok s2 → EdgeSym s2)
      ∧ (∀ p s2, sheetClearCell s p = some s2 → EdgeSym s2) := by
  have key : ∀ (s0 : Sheet), EdgeSym s0 → ∀ P p text s2,
      cellSet P s0 p text = .ok s2 → EdgeSym s2 := by
    intro s0 hs0 P p text s2 h
    obtain ⟨cand, vis, s3, vis2, _, _, hest, hinv⟩ :=
      cellSet_ok_decomp P s0 p text s2 h
    have h1 : EdgeSym (updateCell s0 p (fun c => { c with val := cand })) :=
      edgeSym_of_edgesAt
        (edgesAt_updateCell_of_preserve s0 p _ (fun c => ⟨rfl, rfl⟩)) hs0
    have h2 := removeOld_edgeSym _ p h1
    have h3 := establish_edgeSym p _ _ h2 s3 hest
    exact edgeSym_of_sameSkel (invalidate_skel _ _ _ _ _ _ hinv) h3
  have hclear : ∀ p s2, cellClear s p = some s2 → EdgeSym s2 := by
    intro p s2 h
    unfold cellClear at h
    dsimp only at h
    split at h
    · exact absurd h (by simp)
    · rename_i s2b vis2 hinv
      simp only [Option.some.injEq] at h
      subst h
      have h1 := removeOld_edgeSym s p hs
      have h2 := edgeSym_of_sameSkel (invalidate_skel _ _ _ _ _ _ hinv) h1
      exact edgeSym_of_edgesAt
        (edgesAt_updateCell_of_preserve _ p _ (fun c => ⟨rfl, rfl⟩)) h2
  refine ⟨key s hs, ?_, hclear, ?_, ?_, ?_⟩
  · intro P p text e s2 h
    rw [cellSet_err_state P s p text e s2 h]
    exact hs
  · intro fuel p v s2 h
    exact edgeSym_of_sameSkel (cellGetValue_skel fuel s p v s2 h) hs
  · intro hep P p text s2 h
    unfold sheetSetCell at h
    split at h
    · dsimp only at h
      rcases hlp : lookupCell s p with _ | c
      · rw [hlp] at h
        exact key _ (ensure_edgeSym s p hs hep) P p text s2 h
      · rw [hlp] at h
        exact key s hs P p text s2 h
    · exact absurd h (by simp)
  · intro p s2 h
    unfold sheetClearCell at h
    split at h
    · split at h
      · simp only [Option.some.injEq] at h
        subst h
        exact hs
      · exact hclear p s2 h
    · simp only [Option.some.injEq] at h
      subst h
      exact hs

/-- The two cells of `witnessSheet`. -/
theorem lookup_witnessSheet_cases (q : Pos) (c : Cell)
    (hq : lookupCell witnessSheet q = some c) :
    (q = posA1 ∧ c = ⟨.text "3", [], [posB1]⟩)
      ∨ (q = posB1 ∧ c = ⟨.formula (.cellRef posA1) none, [posA1], []⟩) := by
  simp only [witnessSheet, lookupCell] at hq
  by_cases h1 : posA1 = q
  · rw [if_pos h1] at hq
    exact Or.inl ⟨h1.symm, ((Option.some.injEq _ _).mp hq).symm⟩
  · rw [if_neg h1] at hq
    by_cases h2 : posB1 = q
    · rw [if_pos h2] at hq
      exact Or.inr ⟨h2.symm, ((Option.some.injEq _ _).mp hq).symm⟩
    · rw [if_neg h2] at hq
      exact absurd hq (by simp)

/-- The witness sheet's edges are symmetric. -/
theorem edgeSym_witnessSheet : EdgeSym witnessSheet := by
  intro a ca b cb ha hb
  rcases lookup_witnessSheet_cases a ca ha with ⟨rfl, rfl⟩ | ⟨rfl, rfl⟩ <;>
    rcases lookup_witnessSheet_cases b cb hb with ⟨rfl, rfl⟩ | ⟨rfl, rfl⟩ <;> decide

/-- Every formula cell of `witnessSheet` references only present cells. -/
theorem closedRefs_witnessSheet : ClosedRefs witnessSheet := by
  intro a c ha b hb
  rcases lookup_witnessSheet_cases a c ha with ⟨rfl, rfl⟩ | ⟨rfl, rfl⟩
  · simp [refsOfCVal] at hb
  · have hl : refsOfCVal (.formula (.cellRef posA1) none) = [posA1] := by decide
    rw [hl] at hb
    have hba : b = posA1 := by simpa using hb
    subst hba
    decide

/-- Witness for C9: on `witnessSheet`, re-setting B1 to `=A1` succeeds and
returns `witnessSheet` itself, whose edges the theorem shows symmetric; the
instance at (B1, A1) is the concrete mirrored pair. -/
theorem c9_witness :
    posA1 ∈ (⟨.formula (.cellRef posA1) none, [posA1], []⟩ : Cell).outE
      ↔ posB1 ∈ (⟨.text "3", [], [posB1]⟩ : Cell).inE := by
  have hEdge : EdgeSym witnessSheet :=
    (c9_edge_symmetry witnessSheet edgeSym_witnessSheet).1 demoParse posB1 "=A1"
      witnessSheet (by decide)
  exact hEdge posB1 ⟨.formula (.cellRef posA1) none, [posA1], []⟩
    posA1 ⟨.text "3", [], [posB1]⟩ (by decide) (by decide)

/-! Counting lemmas for the cycle-check fuel bound. -/

theorem filter_length_mono {α : Type} (l : List α) (p q : α → Bool)
    (h : ∀ a, q a = true → p a = true) :
    (l.filter q).length ≤ (l.filter p).length := by
  induction l with
  | nil => simp
  | cons a t ih =>
    by_cases hq : q a = true
    · rw [List.filter_cons_of_pos hq, List.filter_cons_of_pos (h a hq)]
      simpa using ih
    · rw [List.filter_cons_of_neg (by simpa using hq)]
      by_cases hp : p a = true
      · rw [List.filter_cons_of_pos hp]
        exact le_trans ih (Nat.le_succ _)
      · rw [List.filter_cons_of_neg (by simpa using hp)]
        exact ih

theorem filter_length_lt {α : Type} (l : List α) (p q : α → Bool)
    (h : ∀ a, q a = true → p a = true) (r : α) (hr : r ∈ l)
    (hpr : p r = true) (hqr : q r = false) :
    (l.filter q).length < (l.filter p).length := by
  induction l with
  | nil => cases hr
  | cons a t ih =>
    rcases List.mem_cons.mp hr with rfl | hr2
    · rw [List.filter_cons_of_pos hpr, List.filter_cons_of_neg (by simp [hqr])]
      exact Nat.lt_succ_of_le (filter_length_mono t p q h)
    · by_cases hq : q a = true
      · rw [List.filter_cons_of_pos hq, List.filter_cons_of_pos (h a hq)]
        simpa using ih hr2
      · rw [List.filter_cons_of_neg (by simpa using hq)]
        by_cases hp : p a = true
        · rw [List.filter_cons_of_pos hp]
          exact Nat.lt_succ_of_le (le_of_lt (ih hr2))
        · rw [List.filter_cons_of_neg (by simpa using hp)]
          exact ih hr2

theorem mem_keys_of_lookup (s : Sheet) (r : Pos) (c : Cell)
    (h : lookupCell s r = some c) : r ∈ s.map Prod.fst := by
  induction s with
  | nil => simp [lookupCell] at h
  | cons hd tl ih =>
    obtain ⟨k, c0⟩ := hd
    by_cases hk : k = r
    · simp [hk]
    · simp only [lookupCell, if_neg hk] at h
      simp [ih h]

theorem freshCount_le_of_subset (s : Sheet) (vis vis2 : List (Option Pos))
    (h : ∀ x ∈ vis, x ∈ vis2) :
    freshCount s vis2 ≤ freshCount s vis := by
  apply filter_length_mono
  intro a ha
  simp only [Bool.not_eq_true', decide_eq_false_iff_not] at ha ⊢
  exact fun hx => ha (h _ hx)

theorem freshCount_lt_insert (s : Sheet) (vis : List (Option Pos)) (r : Pos)
    (hr : r ∈ s.map Prod.fst) (hnv : (some r : Option Pos) ∉ vis) :
    freshCount s (vis ++ [some r]) < freshCount s vis := by
  refine filter_length_lt _ _ _ ?_ r hr ?_ ?_
  · intro a ha
    simp only [Bool.not_eq_true', decide_eq_false_iff_not, List.mem_append,
      List.mem_singleton, not_or] at ha ⊢
    exact ha.1
  · simp [hnv]
  · simp

/-! The cycle-check DFS: the visited set only grows. -/

theorem dfsGo_mono (s : Sheet) (reference : Pos)
    (descend : List Pos → List (Option Pos) → Option (Bool × List (Option Pos)))
    (hdesc : ∀ refs vis b vis1, descend refs vis = some (b, vis1) →
      ∀ x ∈ vis, x ∈ vis1) :
    ∀ refs vis b vis1, dfsGo s reference descend refs vis = some (b, vis1) →
      ∀ x ∈ vis, x ∈ vis1 := by
  intro refs
  induction refs with
  | nil =>
    intro vis b vis1 h
    simp only [dfsGo, Option.some.injEq, Prod.mk.injEq] at h
    rw [← h.2]
    exact fun x hx => hx
  | cons r rest ih =>
    intro vis b vis1 h
    unfold dfsGo at h
    split at h
    · split at h
      · exact ih _ _ _ h
      · exact absurd h (by simp)
    · split at h
      · simp only [Option.some.injEq, Prod.mk.injEq] at h
        rw [← h.2]
        exact fun x hx => hx
      · split at h
        · exact ih _ _ _ h
        · split at h
          · exact absurd h (by simp)
          · rename_i vis2 hd
            simp only [Option.some.injEq, Prod.mk.injEq] at h
            rw [← h.2]
            intro x hx
            exact hdesc _ _ _ _ hd x (by simp [hx])
          · rename_i vis2 hd
            intro x hx
            exact ih _ _ _ h x (hdesc _ _ _ _ hd x (by simp [hx]))

theorem hasCirc_mono (s : Sheet) (reference : Pos) :
    ∀ fuel refs vis b vis1,
      hasCircularDependency s reference fuel refs vis = some (b, vis1) →
      ∀ x ∈ vis, x ∈ vis1 := by
  intro fuel
  induction fuel with
  | zero =>
    intro refs vis b vis1 h
    exact absurd h (by simp [hasCircularDependency])
  | succ n ih =>
    intro refs vis b vis1 h
    exact dfsGo_mono s reference _ (fun a b c d hh => ih a b c d hh) refs vis b vis1 h

/-- With every encountered cell present and enough fuel, the DFS completes
(no null dereference, no exhaustion). -/
theorem hasCirc_fuel (s : Sheet) (reference : Pos) (hclosed : ClosedRefs s) :
    ∀ fuel refs vis,
      (∀ r ∈ refs, (lookupCell s r).isSome) →
      freshCount s vis < fuel →
      ∃ res, hasCircularDependency s reference fuel refs vis = some res := by
  intro fuel
  induction fuel with
  | zero =>
    intro refs vis _ hfresh
    exact absurd hfresh (by omega)
  | succ n ih =>
    intro refs
    induction refs with
    | nil =>
      intro vis _ _
      exact ⟨(false, vis), rfl⟩
    | cons r rest ihr =>
      intro vis hpres hfresh
      have hr := hpres r (List.mem_cons_self r rest)
      rw [Option.isSome_iff_exists] at hr
      obtain ⟨c, hc⟩ := hr
      show ∃ res, dfsGo s reference (hasCircularDependency s reference n)
        (r :: rest) vis = some res
      unfold dfsGo
      rw [hc]
      dsimp only
      by_cases href : r = reference
      · rw [if_pos href]
        exact ⟨(true, vis), rfl⟩
      · rw [if_neg href]
        by_cases hvis : (some r : Option Pos) ∈ vis
        · rw [if_pos hvis]
          exact ihr vis (fun x hx => hpres x (List.mem_cons_of_mem r hx)) hfresh
        · rw [if_neg hvis]
          have hfresh1 : freshCount s (vis ++ [some r]) < n := by
            have h1 := freshCount_lt_insert s vis r (mem_keys_of_lookup s r c hc) hvis
            omega
          obtain ⟨⟨b, vis2⟩, hres⟩ := ih (refsOfCVal c.val) (vis ++ [some r])
            (fun u hu => hclosed r c hc u hu) hfresh1
          rw [hres]
          cases b with
          | true => exact ⟨(true, vis2), rfl⟩
          | false =>
            have hsub : ∀ x ∈ vis, x ∈ vis2 := by
              intro x hx
              exact hasCirc_mono s reference n _ _ _ _ hres x (by simp [hx])
            have hfresh2 : freshCount s vis2 < n + 1 :=
              lt_of_le_of_lt (freshCount_le_of_subset s vis vis2 hsub) hfresh
            exact ihr vis2 (fun x hx => hpres x (List.mem_cons_of_mem r hx)) hfresh2

/-- Soundness of the DFS: a `true` answer exhibits a cell reachable from
the reference list that is the edited cell itself. -/
theorem dfsGo_sound (s : Sheet) (reference : Pos)
    (descend : List Pos → List (Option Pos) → Option (Bool × List (Option Pos)))
    (hdesc : ∀ refs vis vis1, descend refs vis = some (true, vis1) →
      ∃ r ∈ refs, Relation.ReflTransGen (refEdge s) r reference) :
    ∀ refs vis vis1, dfsGo s reference descend refs vis = some (true, vis1) →
      ∃ r ∈ refs, Relation.ReflTransGen (refEdge s) r reference := by
  intro refs
  induction refs with
  | nil =>
    intro vis vis1 h
    simp [dfsGo] at h
  | cons r rest ih =>
    intro vis vis1 h
    unfold dfsGo at h
    split at h
    · split at h
      · obtain ⟨u, hu, hr⟩ := ih _ _ h
        exact ⟨u, List.mem_cons_of_mem r hu, hr⟩
      · exact absurd h (by simp)
    · rename_i c hlc
      split at h
      · rename_i href
        refine ⟨r, List.mem_cons_self r rest, ?_⟩
        rw [href]
      · split at h
        · obtain ⟨u, hu, hr⟩ := ih _ _ h
          exact ⟨u, List.mem_cons_of_mem r hu, hr⟩
        · split at h
          · exact absurd h (by simp)
          · rename_i vis2 hd
            obtain ⟨u, hu, hr⟩ := hdesc _ _ _ hd
            refine ⟨r, List.mem_cons_self r rest, Relation.ReflTransGen.head ?_ hr⟩
            unfold refEdge refsAt
            rw [hlc]
            exact hu
          · obtain ⟨u, hu, hr⟩ := ih _ _ h
            exact ⟨u, List.mem_cons_of_mem r hu, hr⟩

theorem hasCirc_sound (s : Sheet) (reference : Pos) :
    ∀ fuel refs vis vis1,
      hasCircularDependency s reference fuel refs vis = some (true, vis1) →
      ∃ r ∈ refs, Relation.ReflTransGen (refEdge s) r reference := by
  intro fuel
  induction fuel with
  | zero =>
    intro refs vis vis1 h
    exact absurd h (by simp [hasCircularDependency])
  | succ n ih =>
    intro refs vis vis1 h
    exact dfsGo_sound s reference _ (fun a b c hh => ih a b c hh) refs vis vis1 h

/-- Completeness invariant of the DFS on a `false` answer: the visited set
only grows, every processed reference ends up visited and distinct from
the edited cell, and every newly visited cell is fully expanded — each of
its references is visited and distinct from the edited cell. -/
theorem dfsGo_complete (s : Sheet) (reference : Pos) (hclosed : ClosedRefs s)
    (descend : List Pos → List (Option Pos) → Option (Bool × List (Option Pos)))
    (hdesc : ∀ refs vis vis1, (∀ r ∈ refs, (lookupCell s r).isSome) →
        descend refs vis = some (false, vis1) →
        (∀ x ∈ vis, x ∈ vis1)
          ∧ (∀ r ∈ refs, (some r : Option Pos) ∈ vis1 ∧ r ≠ reference)
          ∧ (∀ x : Pos, (some x : Option Pos) ∈ vis1 →
              (some x : Option Pos) ∉ vis →
              ∀ u ∈ refsAt s x, (some u : Option Pos) ∈ vis1 ∧ u ≠ reference)) :
    ∀ refs vis vis1, (∀ r ∈ refs, (lookupCell s r).isSome) →
      dfsGo s reference descend refs vis = some (false, vis1) →
      (∀ x ∈ vis, x ∈ vis1)
        ∧ (∀ r ∈ refs, (some r : Option Pos) ∈ vis1 ∧ r ≠ reference)
        ∧ (∀ x : Pos, (some x : Option Pos) ∈ vis1 →
            (some x : Option Pos) ∉ vis →
            ∀ u ∈ refsAt s x, (some u : Option Pos) ∈ vis1 ∧ u ≠ reference) := by
  intro refs
  induction refs with
  | nil =>
    intro vis vis1 hpres h
    simp only [dfsGo, Option.some.injEq, Prod.mk.injEq] at h
    obtain ⟨-, h2⟩ := h
    subst h2
    refine ⟨fun x hx => hx, by simp, ?_⟩
    intro x hx hnx
    exact absurd hx hnx
  | cons r rest ih =>
    intro vis vis1 hpres h
    unfold dfsGo at h
    split at h
    · rename_i hlr
      have := hpres r (List.mem_cons_self r rest)
      rw [hlr] at this
      exact absurd this (by simp)
    · rename_i c hlc
      split at h
      · simp at h
      · rename_i href
        split at h
        · rename_i hvis
          obtain ⟨a1, b1, c1⟩ := ih vis vis1
            (fun x hx => hpres x (List.mem_cons_of_mem r hx)) h
          refine ⟨a1, ?_, c1⟩
          intro u hu
          rcases List.mem_cons.mp hu with rfl | hu2
          · exact ⟨a1 _ hvis, href⟩
          · exact b1 u hu2
        · rename_i hvis
          split at h
          · exact absurd h (by simp)
          · simp at h
          · rename_i vis2 hd
            have hpresD : ∀ u ∈ refsOfCVal c.val, (lookupCell s u).isSome :=
              fun u hu => hclosed r c hlc u hu
            obtain ⟨aD, bD, cD⟩ := hdesc _ _ _ hpresD hd
            obtain ⟨aI, bI, cI⟩ := ih vis2 vis1
              (fun x hx => hpres x (List.mem_cons_of_mem r hx)) h
            have hsubA : ∀ x ∈ vis, x ∈ vis1 := by
              intro x hx
              exact aI _ (aD x (by simp [hx]))
            refine ⟨hsubA, ?_, ?_⟩
            · intro u hu
              rcases List.mem_cons.mp hu with rfl | hu2
              · exact ⟨aI _ (aD _ (by simp)), href⟩
              · exact bI u hu2
            · intro x hx hnx
              by_cases hx2 : (some x : Option Pos) ∈ vis2
              · by_cases hx3 : (some x : Option Pos) ∈ vis ++ [some r]
                · have hxr : x = r := by
                    rcases List.mem_append.mp hx3 with hxv | hxs
                    · exact absurd hxv hnx
                    · simpa using hxs
                  subst hxr
                  intro u hu
                  have hu2 : u ∈ refsOfCVal c.val := by
                    unfold refsAt at hu
                    rw [hlc] at hu
                    exact hu
                  exact ⟨aI _ (bD u hu2).1, (bD u hu2).2⟩
                · intro u hu
                  obtain ⟨h1, h2⟩ := cD x hx2 hx3 u hu
                  exact ⟨aI _ h1, h2⟩
              · exact cI x hx hx2

theorem hasCirc_complete (s : Sheet) (reference : Pos) (hclosed : ClosedRefs s) :
    ∀ fuel refs vis vis1, (∀ r ∈ refs, (lookupCell s r).isSome) →
      hasCircularDependency s reference fuel refs vis = some (false, vis1) →
      (∀ x ∈ vis, x ∈ vis1)
        ∧ (∀ r ∈ refs, (some r : Option Pos) ∈ vis1 ∧ r ≠ reference)
        ∧ (∀ x : Pos, (some x : Option Pos) ∈ vis1 →
            (some x : Option Pos) ∉ vis →
            ∀ u ∈ refsAt s x, (some u : Option Pos) ∈ vis1 ∧ u ≠ reference) := by
  intro fuel
  induction fuel with
  | zero =>
    intro refs vis vis1 _ h
    exact absurd h (by simp [hasCircularDependency])
  | succ n ih =>
    intro refs vis vis1 hpres h
    exact dfsGo_complete s reference hclosed _
      (fun a b c hp hh => ih a b c hp hh) refs vis vis1 hpres h

/-- A `false` DFS answer rules out reachability of the edited cell from the
reference list. -/
theorem hasCirc_false_no_reach (s : Sheet) (p : Pos) (hclosed : ClosedRefs s)
    (fuel : Nat) (R : List Pos) (visF : List (Option Pos))
    (hpres : ∀ r ∈ R, (lookupCell s r).isSome)
    (h : hasCircularDependency s p fuel R [some p] = some (false, visF)) :
    ∀ r ∈ R, ¬ Relation.ReflTransGen (refEdge s) r p := by
  obtain ⟨_, hb, hc⟩ := hasCirc_complete s p hclosed fuel R [some p] visF hpres h
  have aux : ∀ x, Relation.ReflTransGen (refEdge s) x p →
      (some x : Option Pos) ∈ visF → x ≠ p → False := by
    intro x hreach
    induction hreach using Relation.ReflTransGen.head_induction_on with
    | refl =>
      intro _ hne
      exact hne rfl
    | @head a u hedge htail ih =>
      intro hmem hne
      have hnx : (some a : Option Pos) ∉ [some p] := by simp [hne]
      obtain ⟨h1, h2⟩ := hc a hmem hnx u hedge
      exact ih h1 h2
  intro r hr hreach
  exact aux r hreach (hb r hr).1 (hb r hr).2

/-! Replacing one vertex's out-neighbourhood in an acyclic graph stays
acyclic when none of the new targets reaches that vertex. -/

theorem reach_update {α : Type} (e e4 : α → α → Prop) (p : α) (R : α → Prop)
    (hchar : ∀ a b, e4 a b ↔ ((a = p ∧ R b) ∨ (a ≠ p ∧ e a b))) :
    ∀ x, Relation.ReflTransGen e4 x p →
      ∃ y, Relation.ReflTransGen e y p ∧ (y = x ∨ R y) := by
  intro x hx
  induction hx using Relation.ReflTransGen.head_induction_on with
  | refl => exact ⟨p, Relation.ReflTransGen.refl, Or.inl rfl⟩
  | @head a u hedge htail ih =>
    by_cases hap : a = p
    · have hRu : R u := by
        rcases (hchar a u).mp hedge with ⟨_, hr⟩ | ⟨hne, _⟩
        · exact hr
        · exact absurd hap hne
      obtain ⟨y, hy, hyor⟩ := ih
      rcases hyor with rfl | hRy
      · exact ⟨y, hy, Or.inr hRu⟩
      · exact ⟨y, hy, Or.inr hRy⟩
    · have heau : e a u := by
        rcases (hchar a u).mp hedge with ⟨hq, _⟩ | ⟨_, he⟩
        · exact absurd hq hap
        · exact he
      obtain ⟨y, hy, hyor⟩ := ih
      rcases hyor with rfl | hRy
      · exact ⟨a, Relation.ReflTransGen.head heau hy, Or.inl rfl⟩
      · exact ⟨y, hy, Or.inr hRy⟩

theorem transGen_update {α : Type} (e e4 : α → α → Prop) (p : α) (R : α → Prop)
    (hchar : ∀ a b, e4 a b ↔ ((a = p ∧ R b) ∨ (a ≠ p ∧ e a b))) :
    ∀ a b, Relation.TransGen e4 a b →
      Relation.TransGen (fun x y => x ≠ p ∧ e4 x y) a b
        ∨ (Relation.ReflTransGen e4 a p ∧ Relation.TransGen e4 p b) := by
  intro a b h
  induction h using Relation.TransGen.head_induction_on with
  | @base a hab =>
    by_cases hap : a = p
    · subst hap
      exact Or.inr ⟨Relation.ReflTransGen.refl, Relation.TransGen.single hab⟩
    · exact Or.inl (Relation.TransGen.single ⟨hap, hab⟩)
  | @ih a c hac htrans ihc =>
    by_cases hap : a = p
    · subst hap
      exact Or.inr ⟨Relation.ReflTransGen.refl, Relation.TransGen.head hac htrans⟩
    · rcases ihc with hf | ⟨hcp, hpb⟩
      · exact Or.inl (Relation.TransGen.head ⟨hap, hac⟩ hf)
      · exact Or.inr ⟨Relation.ReflTransGen.head hac hcp, hpb⟩

theorem acyclic_update {α : Type} (e e4 : α → α → Prop) (p : α) (R : α → Prop)
    (hchar : ∀ a b, e4 a b ↔ ((a = p ∧ R b) ∨ (a ≠ p ∧ e a b)))
    (hacy : ∀ a, ¬ Relation.TransGen e a a)
    (hnr : ∀ r, R r → ¬ Relation.ReflTransGen e r p) :
    ∀ a, ¬ Relation.TransGen e4 a a := by
  intro a hcyc
  rcases transGen_update e e4 p R hchar a a hcyc with hf | ⟨hap, hpa⟩
  · have : Relation.TransGen e a a := by
      refine Relation.TransGen.mono ?_ hf
      intro x y ⟨hxp, hxy⟩
      rcases (hchar x y).mp hxy with ⟨hq, _⟩ | ⟨_, he⟩
      · exact absurd hq hxp
      · exact he
    exact hacy a this
  · have hpp : Relation.TransGen e4 p p := Relation.TransGen.trans_left hpa hap
    obtain ⟨c, hpc, hcp⟩ := Relation.TransGen.head'_iff.mp hpp
    have hRc : R c := by
      rcases (hchar p c).mp hpc with ⟨_, hr⟩ | ⟨hne, _⟩
      · exact hr
      · exact absurd rfl hne
    obtain ⟨y, hy, hyor⟩ := reach_update e e4 p R hchar c hcp
    have hRy : R y := by
      rcases hyor with rfl | hRy
      · exact hRc
      · exact hRy
    exact hnr y hRy hy

/-! Value and out-edge bookkeeping through a successful edit. -/

theorem updateCell_val (s : Sheet) (p : Pos) (f : Cell → Cell)
    (hf : ∀ c, (f c).val = c.val) (q : Pos) :
    (lookupCell (updateCell s p f) q).map Cell.val
      = (lookupCell s q).map Cell.val := by
  rw [lookup_updateCell]
  cases lookupCell s q with
  | none => rfl
  | some c =>
    by_cases h : q = p
    · simp [h, hf]
    · simp [h]

theorem removeOld_val (s : Sheet) (p q : Pos) :
    (lookupCell (removeOldConnections s p) q).map Cell.val
      = (lookupCell s q).map Cell.val := by
  unfold removeOldConnections
  cases lookupCell s p with
  | none => rfl
  | some cp =>
    rw [lookup_mapCells]
    cases lookupCell s q with
    | none => rfl
    | some c =>
      simp [apply_ite Cell.val, ite_self]

theorem establish_val (p : Pos) : ∀ refs s s3,
    establishNewConnections s p refs = some s3 →
    ∀ q, (lookupCell s3 q).map Cell.val = (lookupCell s q).map Cell.val := by
  intro refs
  induction refs with
  | nil =>
    intro s s3 h q
    simp only [establishNewConnections, Option.some.injEq] at h
    rw [← h]
  | cons r rest ih =>
    intro s s3 h q
    unfold establishNewConnections at h
    split at h
    · exact absurd h (by simp)
    · dsimp only at h
      rw [ih _ _ h q,
        updateCell_val _ r (fun c => { c with inE := setInsert c.inE p })
          (fun c => rfl) q,
        updateCell_val _ p (fun c => { c with outE := setInsert c.outE r })
          (fun c => rfl) q]

theorem sameSkel_val_isSome {s s2 : Sheet} (h : SameSkel s s2) (q : Pos) :
    (lookupCell s2 q).isSome = (lookupCell s q).isSome := by
  have hq := h q
  cases h2 : lookupCell s2 q <;> cases h1 : lookupCell s q <;>
    rw [h1, h2] at hq <;> simp_all

theorem refsAt_congr_val (s s2 : Sheet) (q : Pos)
    (h : (lookupCell s2 q).map Cell.val = (lookupCell s q).map Cell.val) :
    refsAt s2 q = refsAt s q := by
  unfold refsAt
  cases h2 : lookupCell s2 q <;> cases h1 : lookupCell s q <;>
    rw [h1, h2] at h <;> simp_all

/-- The reference lists after a successful `Cell::Set`: the edited cell's
are the candidate's, every other cell's are unchanged. -/
theorem refsAt_cellSet_ok (s : Sheet) (p : Pos)
    (s4 : Sheet) (cand : CVal)
    (s3 : Sheet) (vis2 : List Pos) (cp : Cell)
    (hp : lookupCell s p = some cp)
    (hest : establishNewConnections
      (removeOldConnections (updateCell s p (fun c => { c with val := cand })) p)
      p (refsOfCVal cand) = some s3)
    (hinv : invalidateReferencedCellsCache (s3.length + 1) s3 (ascAt s3 p) [p]
      = some (s4, vis2)) :
    ∀ q, refsAt s4 q = if q = p then refsOfCVal cand else refsAt s q := by
  intro q
  have h4 : refsAt s4 q = refsAt s3 q :=
    refsAt_of_sameSkel (invalidate_skel _ _ _ _ _ _ hinv) q
  have h3 : refsAt s3 q
      = refsAt (removeOldConnections
          (updateCell s p (fun c => { c with val := cand })) p) q :=
    refsAt_congr_val _ _ q (establish_val p _ _ _ hest q)
  have h2 : refsAt (removeOldConnections
        (updateCell s p (fun c => { c with val := cand })) p) q
      = refsAt (updateCell s p (fun c => { c with val := cand })) q :=
    refsAt_congr_val _ _ q (removeOld_val _ p q)
  have h1 : refsAt (updateCell s p (fun c => { c with val := cand })) q
      = if q = p then refsOfCVal cand else refsAt s q := by
    unfold refsAt
    rw [lookup_updateCell]
    by_cases h : q = p
    · subst h
      rw [hp]
      simp
    · rw [if_neg h]
      cases lookupCell s q with
      | none => simp [h]
      | some c => simp [h]
  rw [h4, h3, h2, h1]

theorem removeOld_outE (s : Sheet) (p q : Pos) :
    (lookupCell (removeOldConnections s p) q).map Cell.outE
      = (lookupCell s q).map (fun c => if q = p then [] else c.outE) := by
  unfold removeOldConnections
  cases hp : lookupCell s p with
  | none =>
    cases hq : lookupCell s q with
    | none => rfl
    | some c =>
      have hqp : q ≠ p := by
        intro hh
        subst hh
        rw [hp] at hq
        cases hq
      simp [hqp]
  | some cp =>
    rw [lookup_mapCells]
    cases hq : lookupCell s q with
    | none => rfl
    | some c =>
      simp only [Option.map_some']
      by_cases h2 : q = p
      · simp [h2, apply_ite Cell.outE, ite_self]
      · simp [h2, apply_ite Cell.outE, ite_self]

theorem establish_outE (p : Pos) : ∀ refs s s3,
    establishNewConnections s p refs = some s3 →
    ∀ q c3, lookupCell s3 q = some c3 →
    ∃ c, lookupCell s q = some c
      ∧ ∀ b, (b ∈ c3.outE ↔ b ∈ c.outE ∨ (q = p ∧ b ∈ refs)) := by
  intro refs
  induction refs with
  | nil =>
    intro s s3 h q c3 hq
    simp only [establishNewConnections, Option.some.injEq] at h
    subst h
    exact ⟨c3, hq, fun b => by simp⟩
  | cons r rest ih =>
    intro s s3 h q c3 hq
    unfold establishNewConnections at h
    split at h
    · exact absurd h (by simp)
    · dsimp only at h
      obtain ⟨c2, hc2, hmem⟩ := ih _ _ h q c3 hq
      rw [lookup_updateCell, lookup_updateCell, Option.map_map] at hc2
      cases hq0 : lookupCell s q with
      | none =>
        rw [hq0] at hc2
        simp at hc2
      | some c =>
        rw [hq0] at hc2
        simp only [Option.map_some', Option.some.injEq, Function.comp] at hc2
        refine ⟨c, rfl, ?_⟩
        intro b
        rw [hmem b, ← hc2]
        simp only [apply_ite Cell.outE, ite_self]
        by_cases hqp : q = p
        · simp only [hqp, eq_self_iff_true, if_true, ite_true, mem_setInsert,
            List.mem_cons, true_and]
          tauto
        · simp [hqp]

/-- Invariant I1 is restored by a successful `Cell::Set`. -/
theorem outMatches_cellSet_ok (s : Sheet) (p : Pos) (s4 : Sheet) (cand : CVal)
    (s3 : Sheet) (vis2 : List Pos) (cp : Cell)
    (hp : lookupCell s p = some cp)
    (hout : OutMatchesRefs s)
    (hest : establishNewConnections
      (removeOldConnections (updateCell s p (fun c => { c with val := cand })) p)
      p (refsOfCVal cand) = some s3)
    (hinv : invalidateReferencedCellsCache (s3.length + 1) s3 (ascAt s3 p) [p]
      = some (s4, vis2)) :
    OutMatchesRefs s4 := by
  intro a ca hla b
  have hskel := invalidate_skel _ _ _ _ _ _ hinv
  have hsa := hskel a
  rw [hla] at hsa
  cases hl3 : lookupCell s3 a with
  | none =>
    rw [hl3] at hsa
    simp at hsa
  | some c3 =>
    rw [hl3] at hsa
    simp only [Option.map_some', Option.some.injEq] at hsa
    have houtEq : ca.outE = c3.outE := congrArg (fun x => x.2.1) hsa
    have hR := refsAt_cellSet_ok s p s4 cand s3 vis2 cp hp hest hinv a
    have hRa : refsOfCVal ca.val
        = if a = p then refsOfCVal cand else refsAt s a := by
      rw [← hR]
      unfold refsAt
      rw [hla]
    obtain ⟨c2, hc2, hmem⟩ := establish_outE p _ _ _ hest a c3 hl3
    have hro := removeOld_outE (updateCell s p (fun c => { c with val := cand })) p a
    rw [hc2] at hro
    cases hc1 : lookupCell (updateCell s p (fun c => { c with val := cand })) a with
    | none =>
      rw [hc1] at hro
      simp at hro
    | some c1 =>
      rw [hc1] at hro
      simp only [Option.map_some', Option.some.injEq] at hro
      rw [lookup_updateCell] at hc1
      cases hc0 : lookupCell s a with
      | none =>
        rw [hc0] at hc1
        simp at hc1
      | some c0 =>
        rw [hc0] at hc1
        simp only [Option.map_some', Option.some.injEq] at hc1
        have houtE1 : c1.outE = c0.outE := by
          rw [← hc1]
          by_cases hap : a = p <;> simp [hap]
        rw [houtEq, hmem b, hro, houtE1, hRa]
        by_cases hap : a = p
        · simp only [if_pos hap, hap, true_and]
          simp
        · simp only [if_neg hap, hap, false_and, or_false]
          have := hout a c0 hc0 b
          unfold refsAt
          rw [hc0]
          exact this

theorem cellSet_circ_iff_dfs (P : String → Option Expr) (s : Sheet) (p : Pos)
    (text : String) (cand : CVal) (htc : tryCreateCell P text = .ok cand) :
    cellSet P s p text = .err .circularDependency s
      ↔ ∃ vis, hasCircularDependency s p (s.length + 1) (refsOfCVal cand)
          [some p] = some (true, vis) := by
  unfold cellSet
  rw [htc]
  dsimp only
  constructor
  · intro h
    split at h
    · simp at h
    · rename_i vis hdfs
      exact ⟨vis, hdfs⟩
    · try dsimp only at h
      split at h
      · split at h
        · simp at h
        · split at h
          · simp at h
          · simp at h
      · split at h
        · simp at h
        · simp at h
  · rintro ⟨vis, hdfs⟩
    rw [hdfs]

/-- C3 — the cycle check: given a successfully parsed formula candidate for
a present cell, on a sheet whose formulas reference only present cells,
`Cell::Set` fails with `CircularDependencyException` exactly when the
edited cell is reachable from one of the candidate's referenced positions
along the current formula-reference edges (a zero-length path being the
direct self-reference); and when the pre-edit reference graph is acyclic
and invariant I1 ties the out-edge sets to it, every successful edit leaves
the out-edge graph acyclic. -/
theorem c3_cycle_rejection (P : String → Option Expr) (s : Sheet) (p : Pos)
    (text : String) (cand : CVal) (ast : Expr) (cp : Cell)
    (htc : tryCreateCell P text = .ok cand)
    (hcand : cand = .formula ast none)
    (hp : lookupCell s p = some cp)
    (hclosed : ClosedRefs s)
    (hrefs : ∀ r ∈ refsOfCVal cand, (lookupCell s r).isSome) :
    (cellSet P s p text = .err .circularDependency s
        ↔ ∃ r ∈ refsOfCVal cand, Relation.ReflTransGen (refEdge s) r p)
      ∧ (Acyclic s → OutMatchesRefs s →
          ∀ s4, cellSet P s p text = .ok s4 →
            ∀ a, ¬ Relation.TransGen (outEdge s4) a a) := by
  have hfuel : freshCount s [some p] < s.length + 1 := by
    have h1 : freshCount s [some p] ≤ (s.map Prod.fst).length :=
      List.length_filter_le _ _
    rw [List.length_map] at h1
    omega
  constructor
  · constructor
    · intro h
      obtain ⟨vis, hdfs⟩ := (cellSet_circ_iff_dfs P s p text cand htc).mp h
      exact hasCirc_sound s p _ _ _ _ hdfs
    · intro hex
      obtain ⟨⟨b, vis⟩, hres⟩ := hasCirc_fuel s p hclosed (s.length + 1)
        (refsOfCVal cand) [some p] hrefs hfuel
      cases b with
      | false =>
        exfalso
        obtain ⟨r, hr, hreach⟩ := hex
        exact hasCirc_false_no_reach s p hclosed _ _ _ hrefs hres r hr hreach
      | true =>
        exact (cellSet_circ_iff_dfs P s p text cand htc).mpr ⟨vis, hres⟩
  · intro hacy hout s4 h
    obtain ⟨cand2, vis, s3, vis2, htc2, hdfs, hest, hinv⟩ :=
      cellSet_ok_decomp P s p text s4 h
    have hcandeq : cand2 = cand := by
      rw [htc] at htc2
      exact ((Except.ok.injEq _ _).mp htc2).symm
    subst hcandeq
    have hnr : ∀ r ∈ refsOfCVal cand2, ¬ Relation.ReflTransGen (refEdge s) r p :=
      hasCirc_false_no_reach s p hclosed _ _ _ hrefs hdfs
    have hchar0 := refsAt_cellSet_ok s p s4 cand2 s3 vis2 cp hp hest hinv
    have hchar : ∀ a b, refEdge s4 a b
        ↔ ((a = p ∧ b ∈ refsOfCVal cand2) ∨ (a ≠ p ∧ refEdge s a b)) := by
      intro a b
      unfold refEdge
      rw [hchar0 a]
      by_cases hap : a = p <;> simp [hap]
    have hacy4 : ∀ a, ¬ Relation.TransGen (refEdge s4) a a :=
      acyclic_update (refEdge s) (refEdge s4) p
        (fun b => b ∈ refsOfCVal cand2) hchar hacy
        (fun r hr => hnr r hr)
    have hout4 : OutMatchesRefs s4 :=
      outMatches_cellSet_ok s p s4 cand2 s3 vis2 cp hp hout hest hinv
    intro a hcyc
    apply hacy4 a
    refine Relation.TransGen.mono ?_ hcyc
    rintro x y ⟨c, hlx, hmemc⟩
    unfold refEdge refsAt
    rw [hlx]
    exact (hout4 x c hlx y).mp hmemc

/-- Witness for C3: on `witnessSheet` (where B1 holds `=A1`), setting A1 to
`=B1` is reachable back to A1 in one step, so the edit is rejected with
`CircularDependencyException` and the state is unchanged. -/
theorem c3_witness :
    cellSet demoParse witnessSheet posA1 "=B1"
      = SetOutcome.err .circularDependency witnessSheet :=
  (c3_cycle_rejection demoParse witnessSheet posA1 "=B1"
      (.formula (.cellRef posB1) none) (.cellRef posB1)
      ⟨.text "3", [], [posB1]⟩ (by decide) rfl (by decide)
      closedRefs_witnessSheet (by decide)).1.mpr
    ⟨posB1, by decide,
      Relation.ReflTransGen.single (by unfold refEdge; decide)⟩

end Spreadsheet
